import Mathlib

/-!
Verification of the scheduling and caching core of the miloco AI engine
(src/miloco_ai_engine/core).  The C++ sources are embedded shallowly:
machine integers become `Nat`/`Int` with explicit `% 2^64` where the C++
type wraps, strings become byte lists or `String`, shared pointers become
numeric entry identifiers with an explicit entry table, and every stateful
operation becomes a pure state-passing function.
-/

set_option maxHeartbeats 1000000

/-! ## Chunks and chunk hashing (chunk-hash.cpp) -/

/-- Input chunk, mirroring `mtmd_input_chunk`: a text chunk carries its
token ids (`llama_token`, a 32-bit signed integer), an image chunk carries
its image id (the bytes of the C string returned by
`mtmd_image_tokens_get_id`) and its token count. -/
inductive MChunk where
  | text (tokens : List Int)
  | image (id : List Nat) (nTokens : Nat)
deriving DecidableEq, Repr

/-- Number of tokens of a chunk (`mtmd_input_chunk_get_n_tokens`). -/
def MChunk.nTokens : MChunk → Nat
  | .text toks => toks.length
  | .image _ n => n

/-- Decimal digits of a natural number as ASCII byte values
(what `std::stringstream <<` produces for a non-negative integer). -/
def decBytes (n : Nat) : List Nat := (Nat.toDigits 10 n).map Char.toNat

/-- ASCII bytes of the decimal rendering of an `int` (minus sign 45 for
negative values), as `ss << tokens[j]` produces. -/
def intBytes (t : Int) : List Nat :=
  if t < 0 then 45 :: decBytes (-t).toNat else decBytes t.toNat

/-- Embedding of `get_chunk_description`: a text chunk contributes each
token's decimal digits followed by a comma (byte 44); an image chunk
contributes the bytes of `"IMG:"` (73, 77, 71, 58), the image id and a
comma. -/
def get_chunk_description : MChunk → List Nat
  | .text toks => (toks.map (fun t => intBytes t ++ [44])).flatten
  | .image id _ => 73 :: 77 :: 71 :: 58 :: (id ++ [44])

/-- The value of a `char` converted to `uint64_t` by
`static_cast<uint64_t>(c)`: `char` is signed on the reference platform,
so bytes at and above 128 sign-extend. -/
def charToU64 (b : Nat) : Nat := if b < 128 then b % 256 else 2 ^ 64 - 256 + b % 256

/-- Embedding of `simple_hash` from chunk-hash.cpp: an FNV-1a style fold
with offset basis `0x811c9dc5` and prime `0x01000193`, carried out in
`uint64_t` arithmetic (hence the explicit `% 2^64`). -/
def simple_hash (s : List Nat) : Nat :=
  s.foldl (fun h c => ((h ^^^ charToU64 c) * 0x01000193) % 2 ^ 64) 0x811c9dc5

/-- The 64-bit FNV-1a hash as the specification describes it: offset basis
`0xcbf29ce484222325` and prime `0x100000001b3`.  Modelled from the spec
for comparison against `simple_hash`. -/
def fnv1a64Spec (s : List Nat) : Nat :=
  s.foldl (fun h c => ((h ^^^ c % 256) * 0x100000001b3) % 2 ^ 64) 0xcbf29ce484222325

/-- Hex digit character for a value below 16 (lowercase, as `std::hex`). -/
def hexChar (n : Nat) : Char := if n < 10 then Char.ofNat (48 + n) else Char.ofNat (87 + n)

/-- Embedding of `hash_to_hex`: 16 hex digits, zero padded
(`std::setfill('0') << std::setw(16)`). -/
def hash_to_hex (h : Nat) : String :=
  String.mk ((List.range 16).map fun i => hexChar (h / 16 ^ (15 - i) % 16))

/-- Worker of `chunk_hashs`: `acc` is the accumulated `prompt_string`; for
each chunk the descriptor is appended and the hex hash of the whole
accumulated string is emitted. -/
def chunk_hashs_go (acc : List Nat) : List MChunk → List String
  | [] => []
  | c :: rest =>
    let acc2 := acc ++ get_chunk_description c
    hash_to_hex (simple_hash acc2) :: chunk_hashs_go acc2 rest

/-- Embedding of `chunk_hashs`: the cumulative prefix hashes of a chunk
list. -/
def chunk_hashs (cs : List MChunk) : List String := chunk_hashs_go [] cs

/-- The concatenated descriptor stream of a chunk list. -/
def descStream (cs : List MChunk) : List Nat := (cs.map get_chunk_description).flatten

/-- Agreement of two chunks in the sense of claim C7: text chunks carry the
same token ids, image chunks the same image id (the token count of an
image chunk does not enter the hash). -/
def chunkAgree : MChunk → MChunk → Prop
  | .text t1, .text t2 => t1 = t2
  | .image i1 _, .image i2 _ => i1 = i2
  | _, _ => False

/-! ## Prompt cropping (mico-dialog-util.h, limit_prompt_tokens) -/

/-- Total token count of a chunk list. -/
def totalTokens (cs : List MChunk) : Nat := (cs.map MChunk.nTokens).sum

/-- Embedding of the crop loop of `limit_prompt_tokens`.  The input list is
the original chunk list reversed (the C++ loop walks `i` from the last
chunk downwards); `remaining` is `remaining_tokens`.  A text chunk keeps
its tail `min(length, remaining)` tokens; an image chunk is kept whole when
it fits and otherwise discarded together with everything before it
(`break`).  The loop guard `remaining_tokens > 0` is checked before each
chunk. -/
def cropTailRev : List MChunk → Nat → List MChunk
  | [], _ => []
  | c :: rest, remaining =>
    if remaining = 0 then []
    else
      match c with
      | .text toks =>
        let keep := min toks.length remaining
        cropTailRev rest (remaining - keep) ++
          (if keep > 0 then [MChunk.text (toks.drop (toks.length - keep))] else [])
      | .image i n =>
        if n ≤ remaining then cropTailRev rest (remaining - n) ++ [MChunk.image i n] else []

/-- Embedding of `limit_prompt_tokens`.  `prompt_limit` is
`int32_t(n_usage_context * 0.8f)`, modelled as `4 * n / 5` (exact for the
context sizes representable in the engine's configuration). -/
def limit_prompt_tokens (n_usage_context : Nat) (cs : List MChunk) : List MChunk :=
  let prompt_limit := 4 * n_usage_context / 5
  if totalTokens cs > prompt_limit then cropTailRev cs.reverse prompt_limit else cs

/-! ## Memory scheduler copy task (llama-memory-scheduling.cpp) -/

/-- Embedding of the closure enqueued by
`LlamaMemoryScheduler::submit_cache_mem`: given the submitted `p0`, `p1`
and the destination's current maximum KV position (`llama_memory_seq_pos_max`,
`-1` for an empty sequence), it clamps `p_0 = max(p0, max_pos + 1)` and
invokes `llama_memory_seq_cp` with `(p_0, p1)` when `p_0 <= p1 || p1 == -1`;
otherwise it performs no call.  `some (a, b)` records an invocation with
those bounds, `none` a skip. -/
def cacheMemTask (p0 p1 maxPosDst : Int) : Option (Int × Int) :=
  let p_0 := max p0 (maxPosDst + 1)
  if p_0 ≤ p1 ∨ p1 = -1 then some (p_0, p1) else none

/-- The specification's notion for claim C8 of the range `[p0', p1)` being
non-empty, with `p1 = -1` meaning unbounded.  Modelled from the spec for
comparison with `cacheMemTask`. -/
def specRangeNonempty (p0' p1 : Int) : Prop := p1 = -1 ∨ p0' < p1

/-! ## Chunk settlement in BatchScheduler::blocking_infer (batch-scheduler.cpp) -/

/-- Chunk status, mirroring `TaskStatus`. -/
inductive TaskStatus where
  | WAIT
  | PENDING
  | IN_PROGRESS
  | COMPLETED
  | FAILED
deriving DecidableEq, Repr

/-- Conversion of the `int32_t` value loaded from `state.last_token` into
the `size_t` local variable `last_token` of `blocking_infer` (line 86):
two's-complement conversion to an unsigned 64-bit value. -/
def toSizeT (x : Int) : Nat := (x % 2 ^ 64).toNat

/-- Outcome of the settlement step of `blocking_infer` after a chunk's
decode has drained (batch-scheduler.cpp lines 86-98). -/
structure SettleResult where
  status : TaskStatus
  callsUnprepared : Bool
  abortsLoop : Bool
  attemptsStore : Bool
deriving DecidableEq, Repr

/-- Embedding of lines 86-98 of `blocking_infer`: the sequence's
`last_token` is loaded into a `size_t` local and the code branches on
`last_token < 0`, which is the unsigned comparison `toSizeT t < 0`.
`isLast` is `i == input_chunks->size() - 1` and `hasCache` is
`kv_cache_ != nullptr`. -/
def blockingInferSettle (last_token : Int) (isLast hasCache : Bool) : SettleResult :=
  if toSizeT last_token < 0 then
    { status := .FAILED, callsUnprepared := hasCache, abortsLoop := true, attemptsStore := false }
  else
    { status := .COMPLETED, callsUnprepared := false, abortsLoop := false,
      attemptsStore := hasCache && !isLast }

/-! ## Association-list helpers

Shallow stand-ins for `std::unordered_map`: lookup finds the first
matching key, `setA` overwrites it in place (or appends), `updateA`
rewrites its value, `eraseA` removes it. -/

def lookupA [DecidableEq α] : List (α × β) → α → Option β
  | [], _ => none
  | p :: ps, k => if p.1 = k then some p.2 else lookupA ps k

def setA [DecidableEq α] : List (α × β) → α → β → List (α × β)
  | [], k, v => [(k, v)]
  | p :: ps, k, v => if p.1 = k then (k, v) :: ps else p :: setA ps k v

def updateA [DecidableEq α] : List (α × β) → α → (β → β) → List (α × β)
  | [], _, _ => []
  | p :: ps, k, f => if p.1 = k then (k, f p.2) :: ps else p :: updateA ps k f

def eraseA [DecidableEq α] (l : List (α × β)) (k : α) : List (α × β) :=
  l.filter (fun p => p.1 ≠ k)

/-! ## ImageEmbeddingCache (image-embedding-cache.cpp) -/

/-- State of the image embedding cache.  Embedding vectors of `float` are
carried opaquely as `List Int` — only their length enters the byte
accounting (`size() * sizeof(float)`).  The stats fields are the `size_t`
counters of `CacheStats`; `last_maintenance` and the `now` arguments are
steady-clock timestamps in microseconds (the unit
`std::chrono::duration_cast<std::chrono::microseconds>` produces in
`maintain`). -/
structure ImgCache where
  image_wait_set : List String
  image_stored_map : List (String × List Int)
  embed_order : List String
  total_entries : Nat
  total_memory_usage : Nat
  last_maintenance : Nat
  max_num_entries : Nat
  max_memory_usage : Nat
  maintenance_interval : Nat
deriving DecidableEq, Repr

/-- Eviction loop of `ImageEmbeddingCache::maintain`: while the local
entry or byte counter exceeds its target, pop the front of `embed_order`
and erase it from the stored map.  The counters are `size_t` locals, so
subtraction wraps modulo `2^64`. -/
def imgEvictLoop (order : List String) (stored : List (String × List Int))
    (entries mem targetE targetM : Nat) :
    List String × List (String × List Int) × Nat × Nat :=
  if entries > targetE ∨ mem > targetM then
    match order with
    | [] => ([], stored, entries, mem)
    | k :: rest =>
      let byteSize := match lookupA stored k with
        | some v => v.length * 4
        | none => 0
      imgEvictLoop rest (eraseA stored k)
        ((entries + (2 ^ 64 - 1)) % 2 ^ 64) ((mem + (2 ^ 64 - byteSize % 2 ^ 64)) % 2 ^ 64)
        targetE targetM
  else (order, stored, entries, mem)

/-- Embedding of `ImageEmbeddingCache::maintain`.  `now` is the current
steady-clock time in microseconds.  The elapsed time is the MICROsecond
count `time_since_maintenance.count()` and is compared against
`maintenance_interval_` (initialised to 5000, documented as milliseconds
in image-embedding-cache.h).  Maintenance proceeds only when that
comparison passes and a cap is reached; it then evicts from the LRU front
to the 80% targets (`int32_t(max * 0.8)` modelled as `4 * max / 5`). -/
def imgMaintain (now : Nat) (c : ImgCache) : ImgCache :=
  let time_since_maintenance := now - c.last_maintenance
  let max_memory_byte := c.max_memory_usage * 1024 * 1024
  let needMaintain :=
    ¬ time_since_maintenance < c.maintenance_interval ∧
      ¬ (c.total_entries < c.max_num_entries ∧ c.total_memory_usage < max_memory_byte)
  if needMaintain then
    let target_entries := 4 * c.max_num_entries / 5
    let target_memory_usage := 4 * (c.max_memory_usage * 1024 * 1024) / 5
    let r := imgEvictLoop c.embed_order c.image_stored_map c.total_entries
      c.total_memory_usage target_entries target_memory_usage
    { c with
      embed_order := r.1
      image_stored_map := r.2.1
      total_entries := r.1.length
      total_memory_usage := r.2.2.2
      last_maintenance := now }
  else c

/-- Embedding of `ImageEmbeddingCache::store` for an image chunk whose key
is `key`: run `maintain`, insert the embedding into the stored map, erase
the key from the wait set, move the key to the back of the LRU order and
bump the stats. -/
def imgStore (now : Nat) (key : String) (embeddings : List Int) (c : ImgCache) : ImgCache :=
  let c := imgMaintain now c
  let c := { c with
    image_stored_map := setA c.image_stored_map key embeddings
    image_wait_set := c.image_wait_set.filter (fun h => h ≠ key) }
  let c := { c with
    embed_order := (c.embed_order.filter (fun h => h ≠ key)) ++ [key] }
  { c with
    total_entries := c.total_entries + 1
    total_memory_usage := c.total_memory_usage + embeddings.length * 4 }

/-- Embedding of `ImageEmbeddingCache::waiting` for a key. -/
def imgWaiting (key : String) (c : ImgCache) : Bool := key ∈ c.image_wait_set

/-- Embedding of `EncoderSheduler::encoder_task` (encoder-scheduler.cpp
lines 49-67) in terms of the outcome of the runtime calls: `isImage` is
the chunk-type test, `ret` the result of `mtmd_encode_chunk`, and `embd`
the output embedding (`none` for a null pointer, and the store happens
only when `n_embd > 0`, i.e. the list is non-empty).  Every path that does
not reach `encode_cache_->store` leaves the cache untouched. -/
def encoder_task (now : Nat) (isImage : Bool) (key : String) (ret : Int)
    (embd : Option (List Int)) (c : ImgCache) : ImgCache :=
  if !isImage then c
  else if ret ≠ 0 then c
  else
    match embd with
    | some l => if l.length > 0 then imgStore now key l c else c
    | none => c

/-! ## ChunkInferCache (chunk-infer-cache.cpp)

`CacheEntry` objects are shared between slot lists through `shared_ptr`;
the embedding gives each entry a numeric identity (allocated from
`next_id`) and keeps the entry data in a table, so pointer equality
becomes identity of ids. -/

/-- Mirror of `struct CacheEntry`. -/
structure CacheEntry where
  prompt_hash : String
  pos_begin : Int
  pos_end : Int
  last_token : Int
  reference_count : Int
deriving DecidableEq, Repr

/-- Mirror of `struct SeqEntryList`; `seq_entries` holds entry ids and
`last_access` is a steady-clock timestamp. -/
structure SeqEntryList where
  cache_seq_id : Nat
  last_pos : Int
  seq_entries : List Nat
  last_access : Nat
deriving DecidableEq, Repr

/-- State of `ChunkInferCache`: the wait set, the hash-to-entry map
(`cache_map_`), the per-slot lists (`use_seq_mem_`), the entry table that
realises the `shared_ptr` graph, and the next fresh entry id. -/
structure ChunkInferCache where
  cache_wait_set : List String
  cache_map : List (String × Nat)
  use_seq_mem : List SeqEntryList
  entries : List (Nat × CacheEntry)
  next_id : Nat
deriving DecidableEq, Repr

namespace ChunkInferCache

/-- Entry data behind an id (unreachable default for a dangling id,
matching the `CacheEntry` default constructor). -/
def getEntry (s : ChunkInferCache) (eid : Nat) : CacheEntry :=
  (lookupA s.entries eid).getD
    { prompt_hash := "", pos_begin := -1, pos_end := -1, last_token := -1, reference_count := 0 }

/-- Constructor: one empty `SeqEntryList` per cache slot id in
`[cache_seq_begin, seq_max)`. -/
def init (cache_seq_begin seq_max : Nat) : ChunkInferCache :=
  { cache_wait_set := []
    cache_map := []
    use_seq_mem := ((List.range seq_max).drop cache_seq_begin).map
      (fun i => { cache_seq_id := i, last_pos := 0, seq_entries := [], last_access := 0 })
    entries := []
    next_id := 0 }

/-- One decrement step of the eviction loop of `maintain`: decrement the
entry's `reference_count` and, when it drops to zero or below, record its
`prompt_hash` in `to_delete_keys`. -/
def decStep (t : List (Nat × CacheEntry)) (keys : List String) (eid : Nat) :
    List (Nat × CacheEntry) × List String :=
  match lookupA t eid with
  | none => (t, keys)
  | some e =>
    (setA t eid { e with reference_count := e.reference_count - 1 },
      if e.reference_count - 1 ≤ 0 then keys ++ [e.prompt_hash] else keys)

/-- Decrement every entry occurring in a slot's `seq_entries` (the inner
loop of `maintain`). -/
def decList : List Nat → List (Nat × CacheEntry) → List String →
    List (Nat × CacheEntry) × List String
  | [], t, keys => (t, keys)
  | eid :: rest, t, keys =>
    let r := decStep t keys eid
    decList rest r.1 r.2

/-- Outer eviction loop of `maintain` over the chosen slot ids: look the
slot up (`use_seq_mem_.find`), decrement all its entries and collect dead
keys.  Clearing of the slot lists is applied afterwards in `maintain`. -/
def evictIds : List Nat → List SeqEntryList → List (Nat × CacheEntry) → List String →
    List (Nat × CacheEntry) × List String
  | [], _, t, keys => (t, keys)
  | id :: rest, slots, t, keys =>
    match slots.find? (fun sl => sl.cache_seq_id = id) with
    | none => evictIds rest slots t keys
    | some sl =>
      let r := decList sl.seq_entries t keys
      evictIds rest slots r.1 r.2

/-- The flat stream of entry ids the eviction loop of `maintain`
decrements: for each chosen slot id, the `seq_entries` of the slot
`use_seq_mem_.find` returns (nothing for an unknown id). -/
def streamOf (ids : List Nat) (slots : List SeqEntryList) : List Nat :=
  (ids.map (fun id =>
    match slots.find? (fun sl => sl.cache_seq_id = id) with
    | none => []
    | some sl => sl.seq_entries)).flatten

/-- The slots the eviction loop of `maintain` actually visits, in id
order. -/
def chosenSlots (ids : List Nat) (slots : List SeqEntryList) : List SeqEntryList :=
  ids.filterMap (fun id => slots.find? (fun sl => sl.cache_seq_id = id))

/-- Embedding of `ChunkInferCache::maintain`.  Eviction triggers only when
every slot is occupied (`used_seq_num < use_seq_mem_.size()` returns
early otherwise); the target occupancy is `size_t(size * 0.8f)` modelled
as `4 * size / 5`; the least-recently-accessed occupied slots are chosen
(`std::sort` by `last_access`, modelled with insertion sort — the C++
comparator is `<`, and any `last_access`-sorted order yields the same
eviction set up to ties).  Chosen slots have their entries decremented,
their lists cleared and `last_pos` zeroed, and the keys of entries whose
`reference_count` dropped to zero or below are erased from `cache_map_`. -/
def maintain (s : ChunkInferCache) : ChunkInferCache :=
  let used := s.use_seq_mem.filter (fun sl => sl.seq_entries ≠ [])
  if used.length < s.use_seq_mem.length then s
  else
    let max_seq_num := 4 * s.use_seq_mem.length / 5
    let delete_num := used.length - max_seq_num
    let sorted := used.mergeSort (fun a b => a.last_access ≤ b.last_access)
    let to_delete := (sorted.take delete_num).map (fun sl => sl.cache_seq_id)
    let r := evictIds to_delete s.use_seq_mem s.entries []
    { s with
      entries := r.1
      use_seq_mem := s.use_seq_mem.map (fun sl =>
        if sl.cache_seq_id ∈ to_delete then { sl with seq_entries := [], last_pos := 0 } else sl)
      cache_map := s.cache_map.filter (fun p => p.1 ∉ r.2) }

/-- The prefix-entry scan of `store`: for every position `i ≤ chunk_id`,
look `chunk_hashs[i]` up in `cache_map_`; hits are collected together with
their positions (`pre_entries` / `pre_chunk_indexs`). -/
def preOf (m : List (String × Nat)) (hashs : List String) (chunk_id : Nat) : List (Nat × Nat) :=
  (List.range (chunk_id + 1)).filterMap
    (fun i => (lookupA m (hashs.getD i "")).map (fun eid => (i, eid)))

/-- First target-slot scan of `store`: the last slot (in map iteration
order) whose non-empty `seq_entries` ends with the last prefix entry.
The C++ loop assigns `target_seq` on every match without breaking, so the
final match wins; over a list this is the first match from the rear. -/
def selectEnding (preLast : Nat) (slots : List SeqEntryList) : Option SeqEntryList :=
  slots.reverse.find? (fun sl => sl.seq_entries.getLast? = some preLast)

/-- Second target-slot scan of `store`: the last slot with an empty
`seq_entries`. -/
def selectEmpty (slots : List SeqEntryList) : Option SeqEntryList :=
  slots.reverse.find? (fun sl => sl.seq_entries = [])

/-- Combined slot selection of `store`: prefer a slot holding the prefix
(when there is a prefix entry), fall back to an empty slot. -/
def selectTarget (slots : List SeqEntryList) (preLast : Option Nat) : Option SeqEntryList :=
  match (match preLast with
         | some pl => selectEnding pl slots
         | none => none) with
  | some sl => some sl
  | none => selectEmpty slots

/-- Body of `ChunkInferCache::store` after its initial `maintain()` call
(`store` below composes the two).  `now` is the steady-clock timestamp
taken for `last_access`.  Steps, mirroring the source: erase
`chunk_hashs[chunk_id]` from the wait set; scan for
prefix entries; return `true` early when the hash itself is already
cached; select a target slot (or fail with `false`); build the new entry
(`pos_begin` from the last prefix entry, `pos_end = n_past`,
`reference_count = 1`); submit the KV copy (`serialize_kv_cache_state`
always returns `true` — the copy itself runs on the memory worker); then
either splice `pre_entries` plus the new entry into an empty slot
(incrementing each prefix entry's `reference_count`) or append the new
entry to the occupied slot; finally refresh `last_pos`/`last_access` and
publish the hash in `cache_map_`. -/
def store_core (now : Nat) (hashs : List String) (chunk_id : Nat) (last_token n_past : Int)
    (s : ChunkInferCache) : Bool × ChunkInferCache :=
  let key := hashs.getD chunk_id ""
  let s := { s with cache_wait_set := s.cache_wait_set.filter (fun h => h ≠ key) }
  let pre := preOf s.cache_map hashs chunk_id
  if pre.getLast?.map Prod.fst = some chunk_id then (true, s)
  else
    match selectTarget s.use_seq_mem ((pre.getLast?).map Prod.snd) with
    | none => (false, s)
    | some tsl =>
      let newE : CacheEntry :=
        { prompt_hash := key
          pos_begin := match pre.getLast? with
            | none => 0
            | some pl => (getEntry s pl.2).pos_end
          pos_end := n_past
          last_token := last_token
          reference_count := 1 }
      let newId := s.next_id
      if tsl.seq_entries = [] then
        let entsInc := (pre.map Prod.snd).foldl
          (fun t eid => updateA t eid
            (fun e => { e with reference_count := e.reference_count + 1 })) s.entries
        (true, { s with
          entries := entsInc ++ [(newId, newE)]
          use_seq_mem := s.use_seq_mem.map (fun sl =>
            if sl.cache_seq_id = tsl.cache_seq_id then
              { sl with
                seq_entries := pre.map Prod.snd ++ [newId]
                last_pos := n_past
                last_access := now }
            else sl)
          cache_map := setA s.cache_map key newId
          next_id := s.next_id + 1 })
      else
        (true, { s with
          entries := s.entries ++ [(newId, newE)]
          use_seq_mem := s.use_seq_mem.map (fun sl =>
            if sl.cache_seq_id = tsl.cache_seq_id then
              { sl with
                seq_entries := sl.seq_entries ++ [newId]
                last_pos := n_past
                last_access := now }
            else sl)
          cache_map := setA s.cache_map key newId
          next_id := s.next_id + 1 })

/-- Embedding of `ChunkInferCache::store`: `maintain` runs first, then the
body `store_core` above. -/
def store (now : Nat) (hashs : List String) (chunk_id : Nat) (last_token n_past : Int)
    (s : ChunkInferCache) : Bool × ChunkInferCache :=
  store_core now hashs chunk_id last_token n_past (maintain s)

/-- Embedding of `ChunkInferCache::lookup`: a miss returns `none` and
leaves the state alone; a hit returns the mapped entry id; only when the
entry's `reference_count` is exactly `1` does the code go on to refresh
`last_access` of every slot whose list contains the entry. -/
def lookup (now : Nat) (chunk_hash : String) (s : ChunkInferCache) :
    Option Nat × ChunkInferCache :=
  match lookupA s.cache_map chunk_hash with
  | none => (none, s)
  | some eid =>
    if (getEntry s eid).reference_count ≠ 1 then (some eid, s)
    else
      (some eid, { s with use_seq_mem := s.use_seq_mem.map (fun sl =>
        if eid ∈ sl.seq_entries then { sl with last_access := now } else sl) })

/-- Number of cache slots whose `SeqEntryList` contains the entry. -/
def slotsContaining (s : ChunkInferCache) (eid : Nat) : Nat :=
  (s.use_seq_mem.filter (fun sl => eid ∈ sl.seq_entries)).length

/-- The `reference_count` recorded for an entry id (0 for a dangling id). -/
def refcOf (s : ChunkInferCache) (eid : Nat) : Int :=
  (s.getEntry eid).reference_count

/-- The reference-count invariant of claim C6 together with the auxiliary
structural facts needed to preserve it: every entry reachable from
`cache_map_` has its `reference_count` equal to the number of slots
holding it (and is held by at least one slot — so a count of zero never
remains mapped); slot entries are all published in `cache_map_`; map keys
and mapped entry ids are free of duplicates; the mapped entry's
`prompt_hash` field is its key; slot lists are duplicate-free, as are
slot ids; and all ids are below `next_id`. -/
def Inv (s : ChunkInferCache) : Prop :=
  (∀ p ∈ s.cache_map, refcOf s p.2 = (slotsContaining s p.2 : Int) ∧ 1 ≤ slotsContaining s p.2) ∧
  (∀ sl ∈ s.use_seq_mem, ∀ eid ∈ sl.seq_entries, ∃ p ∈ s.cache_map, p.2 = eid) ∧
  (s.cache_map.map Prod.fst).Nodup ∧
  (s.cache_map.map Prod.snd).Nodup ∧
  (∀ p ∈ s.cache_map, (lookupA s.entries p.2).map CacheEntry.prompt_hash = some p.1) ∧
  (∀ sl ∈ s.use_seq_mem, sl.seq_entries.Nodup) ∧
  (s.use_seq_mem.map (fun sl => sl.cache_seq_id)).Nodup ∧
  (∀ sl ∈ s.use_seq_mem, ∀ eid ∈ sl.seq_entries, eid < s.next_id) ∧
  (∀ p ∈ s.cache_map, p.2 < s.next_id) ∧
  (s.entries.map Prod.fst).Nodup ∧
  (∀ p ∈ s.entries, p.1 < s.next_id)

end ChunkInferCache

/-! ## Concrete example states used in witnesses and counterexamples -/

/-- An image cache right after `prepare` inserted the key `"img"` into the
wait set (default limits of `EncoderSheduler`: 100 entries, 1024 MB,
5000 interval). -/
def imgCacheWaitExample : ImgCache :=
  { image_wait_set := ["img"]
    image_stored_map := []
    embed_order := []
    total_entries := 0
    total_memory_usage := 0
    last_maintenance := 0
    max_num_entries := 100
    max_memory_usage := 1024
    maintenance_interval := 5000 }

/-- An image cache at its entry cap (`max_entries = 4`) holding four
one-float embeddings, last maintained at time 0. -/
def imgCacheFullExample : ImgCache :=
  { image_wait_set := []
    image_stored_map := [("a", [1]), ("b", [1]), ("c", [1]), ("d", [1])]
    embed_order := ["a", "b", "c", "d"]
    total_entries := 4
    total_memory_usage := 16
    last_maintenance := 0
    max_num_entries := 4
    max_memory_usage := 1024
    maintenance_interval := 5000 }

/-- A chunk-infer cache holding one entry (id 0, hash `"h"`,
`reference_count = 2`) shared by the two cache slots 5 and 6. -/
def cicSharedExample : ChunkInferCache :=
  { cache_wait_set := []
    cache_map := [("h", 0)]
    use_seq_mem :=
      [ { cache_seq_id := 5, last_pos := 4, seq_entries := [0], last_access := 11 }
      , { cache_seq_id := 6, last_pos := 4, seq_entries := [0], last_access := 12 } ]
    entries := [(0, { prompt_hash := "h", pos_begin := 0, pos_end := 4, last_token := 3,
                      reference_count := 2 })]
    next_id := 1 }

/-! # Theorems -/

/-! ## C1 — settlement of a chunk after decode (blocking_infer lines 86-98) -/

/-- C1: the spec says a negative `last_token` (decode-failure sentinel -1)
marks the chunk FAILED, calls `unprepared` and aborts the per-chunk loop.
The code loads `last_token` into a `size_t` local, so the comparison
`last_token < 0` is unsigned and never true: at `last_token = -1` the
chunk is marked COMPLETED, `unprepared` is not called, the loop continues,
and for a non-terminal chunk a `store` is attempted.  The conversion of
`-1` to `size_t` is also evaluated explicitly. -/
theorem blockingInferSettle_eats_decode_failure :
    blockingInferSettle (-1) false true =
      { status := .COMPLETED, callsUnprepared := false, abortsLoop := false,
        attemptsStore := true } ∧
    blockingInferSettle (-1) true true =
      { status := .COMPLETED, callsUnprepared := false, abortsLoop := false,
        attemptsStore := false } ∧
    toSizeT (-1) = 2 ^ 64 - 1 := by
  refine ⟨?_, ?_, ?_⟩ <;> decide

/-! ## C2 — encoder failure must clear the wait-set slot (encoder_task) -/

/-- C2: the spec requires every failure path of `encoder_task` to remove
the image key from the wait set so that `wait_for_result` wakes up and
returns none.  In the code only `ImageEmbeddingCache::store` erases the
key; when `mtmd_encode_chunk` fails (here `ret = 1`), when the output
embedding is null, or when it is empty, `encoder_task` returns with the
cache untouched, so the key stays in the wait set and `waiting` remains
true — the predicate `wait_for_result` blocks on never flips. -/
theorem encoder_task_failure_leaves_wait_set :
    encoder_task 0 true "img" 1 none imgCacheWaitExample = imgCacheWaitExample ∧
    encoder_task 0 true "img" 0 none imgCacheWaitExample = imgCacheWaitExample ∧
    encoder_task 0 true "img" 0 (some []) imgCacheWaitExample = imgCacheWaitExample ∧
    imgWaiting "img" imgCacheWaitExample = true ∧
    lookupA imgCacheWaitExample.image_stored_map "img" = none := by
  refine ⟨?_, ?_, ?_, ?_, ?_⟩ <;> decide

/-! ## C4 — ImageEmbeddingCache::maintain interval (µs vs ms) -/

/-- C4: the claim (and the header comment on `maintenance_interval_`, 5000
"ms") says maintenance waits at least 5 seconds.  The code compares the
MICROsecond count of the elapsed time against 5000, so eviction already
runs 10000 µs = 10 ms after the previous maintenance: at the entry cap it
evicts the LRU front key `"a"` down to the 80% target `4 * 4 / 5 = 3`,
although far less than 5 s (5000000 µs) elapsed. -/
theorem imgMaintain_interval_is_microseconds :
    (imgMaintain 10000 imgCacheFullExample).embed_order = ["b", "c", "d"] ∧
    lookupA (imgMaintain 10000 imgCacheFullExample).image_stored_map "a" = none ∧
    (imgMaintain 10000 imgCacheFullExample).total_entries = 3 ∧
    10000 - imgCacheFullExample.last_maintenance < 5000000 := by
  refine ⟨?_, ?_, ?_, ?_⟩ <;> decide

/-! ## C8 — MemoryScheduler copy closure (submit_cache_mem) -/

/-- C8 counterexample: the claim says the KV copy is performed if and only
if the clamped range `[p0', p1)` is non-empty.  At `p0 = 5`, `p1 = 5` and
an empty destination (`max_pos = -1`), the clamp gives `p0' = 5`, the
range `[5, 5)` is empty, yet the code's guard `p_0 <= p1 || p1 == -1`
holds and `llama_memory_seq_cp` is invoked. -/
theorem cacheMemTask_copies_empty_range :
    cacheMemTask 5 5 (-1) = some (5, 5) ∧ ¬ specRangeNonempty 5 5 := by
  constructor
  · decide
  · intro h
    rcases h with h | h <;> omega

/-- C8 amended: the closure clamps the start to `p0' = max(p0, max_pos+1)`
and invokes the copy exactly when `p0' ≤ p1` or `p1 = -1` (so on a
non-empty clamped range it always copies, and it skips — leaving the
destination untouched — exactly when `0 ≤ p1 < p0'`); every invocation
uses the bounds `(p0', p1)`. -/
theorem cacheMemTask_characterisation (p0 p1 maxPosDst : Int) :
    ((cacheMemTask p0 p1 maxPosDst).isSome ↔
      (max p0 (maxPosDst + 1) ≤ p1 ∨ p1 = -1)) ∧
    (∀ r, cacheMemTask p0 p1 maxPosDst = some r → r = (max p0 (maxPosDst + 1), p1)) ∧
    (specRangeNonempty (max p0 (maxPosDst + 1)) p1 → (cacheMemTask p0 p1 maxPosDst).isSome) := by
  unfold cacheMemTask
  by_cases h : max p0 (maxPosDst + 1) ≤ p1 ∨ p1 = -1
  · simp only [if_pos h]
    refine ⟨by simpa using h, ?_, fun _ => rfl⟩
    intro r hr
    exact (Option.some_inj.mp hr).symm
  · simp only [if_neg h]
    refine ⟨by simpa using h, ?_, ?_⟩
    · intro r hr
      cases hr
    · intro hne
      rcases hne with h1 | h1
      · exact absurd (Or.inr h1) h
      · exact absurd (Or.inl h1.le) h

/-- C8 witness for the amended characterisation: at `p0 = 2`, `p1 = 7`,
`max_pos = 3`, the copy is invoked with the clamped bounds `(4, 7)`. -/
theorem cacheMemTask_characterisation_witness :
    cacheMemTask 2 7 3 = some (4, 7) ∧ (4 : Int) ≤ 7 := by
  have h := (cacheMemTask_characterisation 2 7 3).2.1
  constructor
  · have : (cacheMemTask 2 7 3).isSome := by decide
    match hr : cacheMemTask 2 7 3 with
    | some r => rw [h r hr]; rfl
    | none => rw [hr] at this; cases this
  · decide

/-! ## C3 — the hash constants (chunk-hash.cpp, simple_hash / chunk_hashs) -/

/-- Helper: `getD` through `chunk_hashs_go` — the hash emitted at position
`i` is the hash of the accumulated string extended by the descriptors of
the first `i + 1` chunks. -/
theorem chunk_hashs_go_getD (cs : List MChunk) :
    ∀ (acc : List Nat) (i : Nat), i < cs.length →
      (chunk_hashs_go acc cs).getD i "" =
        hash_to_hex (simple_hash (acc ++ descStream (cs.take (i + 1)))) := by
  induction cs with
  | nil => intro acc i h; cases h
  | cons c rest ih =>
    intro acc i h
    cases i with
    | zero =>
      simp [chunk_hashs_go, descStream]
    | succ i =>
      have h' : i < rest.length := by simpa using h
      have := ih (acc ++ get_chunk_description c) i h'
      simp only [chunk_hashs_go, List.getD_cons_succ]
      rw [this]
      simp [descStream, List.append_assoc]

/-- C3 counterexample: for the one-chunk list `[text [0]]` the hash the
code computes differs from the 64-bit FNV-1a hash (offset basis
`0xcbf29ce484222325`, prime `0x100000001b3`) of the descriptor stream
that the claim names: `simple_hash` uses the 32-bit FNV constants
`0x811c9dc5` and `0x01000193`. -/
theorem chunk_hashs_ne_fnv1a64 :
    chunk_hashs [MChunk.text [0]] ≠
      [hash_to_hex (fnv1a64Spec (descStream [MChunk.text [0]]))] := by
  decide

/-- C3 amended: the hash at position `i` is the FNV-1a-style hash with the
32-bit FNV constants (offset basis `0x811c9dc5`, prime `0x01000193`)
computed in 64-bit arithmetic — i.e. exactly `simple_hash` — of the
concatenated descriptors of chunks `0..i`, rendered as 16 hex digits; in
particular it is a pure function of the descriptor stream of the prefix
and of nothing else. -/
theorem chunk_hashs_getD_eq_simple_hash_prefix (cs : List MChunk) (i : Nat)
    (h : i < cs.length) :
    (chunk_hashs cs).getD i "" = hash_to_hex (simple_hash (descStream (cs.take (i + 1)))) := by
  have := chunk_hashs_go_getD cs [] i h
  simpa [chunk_hashs] using this

/-- C3 witness: the amended statement evaluated on a two-chunk list at
position 1. -/
theorem chunk_hashs_getD_eq_simple_hash_prefix_witness :
    (chunk_hashs [MChunk.text [1], MChunk.image [65] 2]).getD 1 "" =
      hash_to_hex (simple_hash (descStream
        ([MChunk.text [1], MChunk.image [65] 2].take 2))) :=
  chunk_hashs_getD_eq_simple_hash_prefix [MChunk.text [1], MChunk.image [65] 2] 1 (by decide)

/-! ## C7 — prefix-cumulative hashes (chunk_hashs) -/

/-- Helper: agreeing chunks have identical descriptors. -/
theorem get_chunk_description_eq_of_agree (c₁ c₂ : MChunk) (h : chunkAgree c₁ c₂) :
    get_chunk_description c₁ = get_chunk_description c₂ := by
  cases c₁ <;> cases c₂ <;> simp [chunkAgree] at h <;> simp [get_chunk_description, h]

/-- Helper: the first `n` emitted hashes depend only on the accumulator
and the first `n` chunks (up to agreement). -/
theorem chunk_hashs_go_take_agree :
    ∀ (n : Nat) (cs₁ cs₂ : List MChunk) (acc : List Nat),
      List.Forall₂ chunkAgree (cs₁.take n) (cs₂.take n) →
      (chunk_hashs_go acc cs₁).take n = (chunk_hashs_go acc cs₂).take n := by
  intro n
  induction n with
  | zero => intro cs₁ cs₂ acc _; simp
  | succ n ih =>
    intro cs₁ cs₂ acc h
    cases cs₁ with
    | nil =>
      cases cs₂ with
      | nil => rfl
      | cons c₂ t₂ => simp at h
    | cons c₁ t₁ =>
      cases cs₂ with
      | nil => simp at h
      | cons c₂ t₂ =>
        simp only [List.take_succ_cons] at h
        cases h with
        | cons hagree htail =>
          have hdesc := get_chunk_description_eq_of_agree c₁ c₂ hagree
          simp only [chunk_hashs_go, List.take_succ_cons, hdesc]
          exact congrArg _ (ih t₁ t₂ (acc ++ get_chunk_description c₂) htail)

/-- C7: two chunk lists that agree (same token ids for text chunks, same
image id for image chunks) at every position up to and including `k`
receive identical hash strings at every position `0..k`. -/
theorem chunk_hashs_take_eq_of_agree (cs₁ cs₂ : List MChunk) (k : Nat)
    (h : List.Forall₂ chunkAgree (cs₁.take (k + 1)) (cs₂.take (k + 1))) :
    (chunk_hashs cs₁).take (k + 1) = (chunk_hashs cs₂).take (k + 1) :=
  chunk_hashs_go_take_agree (k + 1) cs₁ cs₂ [] h

/-- C7 witness: two three-chunk lists sharing text tokens and the image id
(but not the image token count, which the hash ignores) up to position 1,
with differing final chunks. -/
theorem chunk_hashs_take_eq_of_agree_witness :
    (chunk_hashs [MChunk.text [1, 2], MChunk.image [65] 3, MChunk.text [9]]).take 2 =
      (chunk_hashs [MChunk.text [1, 2], MChunk.image [65] 7, MChunk.text [4, 4]]).take 2 :=
  chunk_hashs_take_eq_of_agree _ _ 1
    (List.Forall₂.cons rfl (List.Forall₂.cons rfl List.Forall₂.nil))

/-! ## C9 — limit_prompt_tokens (mico-dialog-util.h) -/

/-- Helper: the total token count of chunks appended. -/
theorem totalTokens_append (l₁ l₂ : List MChunk) :
    totalTokens (l₁ ++ l₂) = totalTokens l₁ + totalTokens l₂ := by
  simp [totalTokens]

/-- Helper: the crop walk never keeps more tokens than its budget. -/
theorem cropTailRev_total_le : ∀ (l : List MChunk) (r : Nat), totalTokens (cropTailRev l r) ≤ r := by
  intro l
  induction l with
  | nil => intro r; simp [cropTailRev, totalTokens]
  | cons c rest ih =>
    intro r
    by_cases hr : r = 0
    · subst hr; simp [cropTailRev, totalTokens]
    · cases c with
      | text toks =>
        have h₁ := ih (r - min toks.length r)
        have hkeep : min toks.length r ≤ r := min_le_right _ _
        have hkle : min toks.length r ≤ toks.length := min_le_left _ _
        by_cases hk : min toks.length r > 0
        · simp only [cropTailRev, if_neg hr, if_pos hk, totalTokens, List.map_append,
            List.sum_append, List.map_cons, List.map_nil, List.sum_cons, List.sum_nil,
            MChunk.nTokens, List.length_drop] at h₁ ⊢
          omega
        · simp only [cropTailRev, if_neg hr, if_neg hk, totalTokens, List.map_append,
            List.sum_append, List.map_nil, List.sum_nil] at h₁ ⊢
          omega
      | image i n =>
        by_cases hn : n ≤ r
        · have h₁ := ih (r - n)
          simp only [cropTailRev, if_neg hr, if_pos hn, totalTokens, List.map_append,
            List.sum_append, List.map_cons, List.map_nil, List.sum_cons, List.sum_nil,
            MChunk.nTokens] at h₁ ⊢
          omega
        · simp only [cropTailRev, if_neg hr, if_neg hn, totalTokens, List.map_nil, List.sum_nil]
          omega

/-- C9: `limit_prompt_tokens` leaves a list within the
`context_per_seq × 0.8` budget unchanged; a list over budget is replaced
by the tail crop `cropTailRev` (text chunks keep their tail
`min(budget, length)` tokens, an image chunk is kept whole when it fits
and discards the rest of the walk when it does not); and in every case
the result's total token count is at most `4 * n_usage_context / 5`. -/
theorem limit_prompt_tokens_spec (n : Nat) (cs : List MChunk) :
    totalTokens (limit_prompt_tokens n cs) ≤ 4 * n / 5 ∧
    (totalTokens cs ≤ 4 * n / 5 → limit_prompt_tokens n cs = cs) ∧
    (4 * n / 5 < totalTokens cs →
      limit_prompt_tokens n cs = cropTailRev cs.reverse (4 * n / 5)) := by
  unfold limit_prompt_tokens
  by_cases h : totalTokens cs > 4 * n / 5
  · simp only [if_pos h]
    refine ⟨cropTailRev_total_le _ _, fun hc => absurd h (not_lt.mpr hc), ?_⟩
    first
    | exact fun _ => rfl
    | exact fun _ => trivial
  · simp only [if_neg h]
    refine ⟨not_lt.mp h, ?_, fun hc => absurd hc h⟩
    first
    | exact fun _ => rfl
    | exact fun _ => trivial

/-- C9 witness: a 10-token prompt against a context of 10
(budget `8`) is cropped from the tail to exactly 8 tokens, keeping the
image whole and the tail token of the boundary text chunk. -/
theorem limit_prompt_tokens_spec_witness :
    limit_prompt_tokens 10 [MChunk.text [1, 2, 3], MChunk.image [65] 4, MChunk.text [5, 6, 7]] =
      cropTailRev [MChunk.text [1, 2, 3], MChunk.image [65] 4, MChunk.text [5, 6, 7]].reverse 8 ∧
    totalTokens (limit_prompt_tokens 10
      [MChunk.text [1, 2, 3], MChunk.image [65] 4, MChunk.text [5, 6, 7]]) ≤ 8 :=
  ⟨(limit_prompt_tokens_spec 10 _).2.2 (by decide), (limit_prompt_tokens_spec 10 _).1⟩

/-! ## C10 — ChunkInferCache::lookup frame behaviour -/

/-- C10: `lookup` of a stored hash returns the mapped entry and changes
neither the hash-to-entry map, the entry table, the wait set, nor any
slot's entry list; when the entry's `reference_count` differs from 1 the
whole state is untouched (so slots sharing the entry gain no
`last_access` refresh from the hit), and when it is exactly 1 the slots
containing the entry — and only those — get `last_access := now`. -/
theorem chunkInferCache_lookup_frame (s : ChunkInferCache) (now : Nat) (h : String) (eid : Nat)
    (hfound : lookupA s.cache_map h = some eid) :
    (ChunkInferCache.lookup now h s).1 = some eid ∧
    (ChunkInferCache.lookup now h s).2.cache_map = s.cache_map ∧
    (ChunkInferCache.lookup now h s).2.entries = s.entries ∧
    (ChunkInferCache.lookup now h s).2.cache_wait_set = s.cache_wait_set ∧
    (ChunkInferCache.lookup now h s).2.use_seq_mem.map (fun sl => sl.seq_entries) =
      s.use_seq_mem.map (fun sl => sl.seq_entries) ∧
    (ChunkInferCache.refcOf s eid ≠ 1 → (ChunkInferCache.lookup now h s).2 = s) ∧
    (ChunkInferCache.refcOf s eid = 1 →
      (ChunkInferCache.lookup now h s).2.use_seq_mem = s.use_seq_mem.map (fun sl =>
        if eid ∈ sl.seq_entries then { sl with last_access := now } else sl)) := by
  simp only [ChunkInferCache.lookup, hfound]
  by_cases hrc : (s.getEntry eid).reference_count ≠ 1
  · rw [if_pos hrc]
    exact ⟨rfl, rfl, rfl, rfl, rfl, fun _ => rfl, fun h1 => absurd h1 hrc⟩
  · rw [if_neg hrc]
    refine ⟨rfl, rfl, rfl, rfl, ?_, fun h1 => absurd h1 hrc, fun _ => rfl⟩
    simp only [List.map_map]
    refine List.map_congr_left (fun sl _ => ?_)
    by_cases hm : eid ∈ sl.seq_entries <;> simp [hm]

/-- C10 witness: on a cache whose single entry has `reference_count = 2`
(shared by slots 5 and 6), a hit returns the entry and leaves the state —
in particular both slots' `last_access` — byte-for-byte unchanged. -/
theorem chunkInferCache_lookup_frame_witness :
    (ChunkInferCache.lookup 99 "h" cicSharedExample).1 = some 0 ∧
    (ChunkInferCache.lookup 99 "h" cicSharedExample).2 = cicSharedExample := by
  have H := chunkInferCache_lookup_frame cicSharedExample 99 "h" 0 (by decide)
  exact ⟨H.1, H.2.2.2.2.2.1 (by decide)⟩

/-! ## Association-list lemmas (shared by C5 and C6) -/

theorem lookupA_eq_none_iff [DecidableEq α] (l : List (α × β)) (k : α) :
    lookupA l k = none ↔ k ∉ l.map Prod.fst := by
  induction l with
  | nil => simp [lookupA]
  | cons p ps ih =>
    by_cases h : p.1 = k
    · simp [lookupA, h]
    · simp only [lookupA, if_neg h, List.map_cons, List.mem_cons]
      rw [ih]
      constructor
      · intro hn hc
        rcases hc with hc | hc
        · exact h hc.symm
        · exact hn hc
      · intro hn hc
        exact hn (Or.inr hc)

theorem lookupA_mem [DecidableEq α] {l : List (α × β)} {k : α} {v : β}
    (h : lookupA l k = some v) : (k, v) ∈ l := by
  induction l with
  | nil => cases h
  | cons p ps ih =>
    by_cases hp : p.1 = k
    · simp only [lookupA, if_pos hp] at h
      obtain rfl := Option.some_inj.mp h
      have hpe : (k, p.2) = p := by
        rw [← hp]
      rw [hpe]
      exact List.mem_cons_self _ _
    · simp only [lookupA, if_neg hp] at h
      exact List.mem_cons_of_mem _ (ih h)

theorem lookupA_of_mem_nodup [DecidableEq α] {l : List (α × β)} {k : α} {v : β}
    (hnd : (l.map Prod.fst).Nodup) (hmem : (k, v) ∈ l) : lookupA l k = some v := by
  induction l with
  | nil => cases hmem
  | cons p ps ih =>
    simp only [List.map_cons, List.nodup_cons] at hnd
    rcases List.mem_cons.mp hmem with h | h
    · subst h
      simp [lookupA]
    · have hk : p.1 ≠ k := by
        intro he
        exact hnd.1 (he ▸ (List.mem_map.mpr ⟨(k, v), h, rfl⟩))
      simp only [lookupA, if_neg hk]
      exact ih hnd.2 h

theorem setA_of_not_mem [DecidableEq α] {l : List (α × β)} {k : α} (v : β)
    (h : lookupA l k = none) : setA l k v = l ++ [(k, v)] := by
  induction l with
  | nil => rfl
  | cons p ps ih =>
    by_cases hp : p.1 = k
    · simp [lookupA, hp] at h
    · simp only [lookupA, if_neg hp] at h
      simp [setA, hp, ih h]

theorem lookupA_append_some [DecidableEq α] {l₁ : List (α × β)} (l₂ : List (α × β)) {k : α}
    {v : β} (h : lookupA l₁ k = some v) : lookupA (l₁ ++ l₂) k = some v := by
  induction l₁ with
  | nil => cases h
  | cons p ps ih =>
    by_cases hp : p.1 = k
    · simp only [lookupA, if_pos hp] at h ⊢
      exact h
    · simp only [lookupA, if_neg hp] at h ⊢
      exact ih h

theorem lookupA_append_none [DecidableEq α] {l₁ : List (α × β)} (l₂ : List (α × β)) {k : α}
    (h : lookupA l₁ k = none) : lookupA (l₁ ++ l₂) k = lookupA l₂ k := by
  induction l₁ with
  | nil => rfl
  | cons p ps ih =>
    by_cases hp : p.1 = k
    · simp [lookupA, hp] at h
    · simp only [lookupA, if_neg hp] at h ⊢
      exact ih h

theorem lookupA_setA_self [DecidableEq α] (l : List (α × β)) (k : α) (v : β) :
    lookupA (setA l k v) k = some v := by
  induction l with
  | nil => simp [setA, lookupA]
  | cons p ps ih =>
    by_cases hp : p.1 = k
    · simp [setA, hp, lookupA]
    · simp [setA, hp, lookupA, ih]

theorem lookupA_setA_ne [DecidableEq α] (l : List (α × β)) (k k' : α) (v : β) (h : k' ≠ k) :
    lookupA (setA l k v) k' = lookupA l k' := by
  induction l with
  | nil =>
    simp only [setA, lookupA]
    rw [if_neg (fun hh : k = k' => h hh.symm)]
  | cons p ps ih =>
    by_cases hp : p.1 = k
    · simp only [setA, if_pos hp, lookupA]
      rw [if_neg (fun hh : k = k' => h hh.symm), if_neg (fun hh : p.1 = k' => h (hp.symm.trans hh).symm)]
    · simp only [setA, if_neg hp, lookupA]
      by_cases hp' : p.1 = k'
      · rw [if_pos hp', if_pos hp']
      · rw [if_neg hp', if_neg hp']
        exact ih

theorem lookupA_updateA_self [DecidableEq α] (l : List (α × β)) (k : α) (f : β → β) :
    lookupA (updateA l k f) k = (lookupA l k).map f := by
  induction l with
  | nil => simp [updateA, lookupA]
  | cons p ps ih =>
    by_cases hp : p.1 = k
    · simp [updateA, hp, lookupA]
    · simp [updateA, hp, lookupA, ih]

theorem lookupA_updateA_ne [DecidableEq α] (l : List (α × β)) (k k' : α) (f : β → β)
    (h : k' ≠ k) : lookupA (updateA l k f) k' = lookupA l k' := by
  induction l with
  | nil => simp [updateA, lookupA]
  | cons p ps ih =>
    by_cases hp : p.1 = k
    · simp only [updateA, if_pos hp, lookupA]
      rw [if_neg (fun hh : k = k' => h hh.symm), if_neg (fun hh : p.1 = k' => h (hp.symm.trans hh).symm)]
    · simp only [updateA, if_neg hp, lookupA]
      by_cases hp' : p.1 = k'
      · rw [if_pos hp', if_pos hp']
      · rw [if_neg hp', if_neg hp']
        exact ih

theorem updateA_map_fst [DecidableEq α] (l : List (α × β)) (k : α) (f : β → β) :
    (updateA l k f).map Prod.fst = l.map Prod.fst := by
  induction l with
  | nil => rfl
  | cons p ps ih =>
    by_cases hp : p.1 = k
    · simp [updateA, hp]
    · simp [updateA, hp, ih]

/-! ## preOf and slot-selection lemmas (ChunkInferCache.store) -/

theorem preOf_mem (m : List (String × Nat)) (hashs : List String) (chunk_id : Nat)
    {i eid : Nat} (h : (i, eid) ∈ ChunkInferCache.preOf m hashs chunk_id) :
    lookupA m (hashs.getD i "") = some eid ∧ i ≤ chunk_id := by
  unfold ChunkInferCache.preOf at h
  obtain ⟨j, hj, hje⟩ := List.mem_filterMap.mp h
  rcases ho : lookupA m (hashs.getD j "") with _ | v
  · rw [ho] at hje
    cases hje
  · rw [ho] at hje
    simp only [Option.map_some', Option.some_inj] at hje
    have hj1 : j = i := congrArg Prod.fst hje
    have hj2 : v = eid := congrArg Prod.snd hje
    subst hj1
    subst hj2
    refine ⟨ho, ?_⟩
    have := List.mem_range.mp hj
    omega

theorem preOf_getLast_of_lookup (m : List (String × Nat)) (hashs : List String)
    (chunk_id : Nat) {eid : Nat} (h : lookupA m (hashs.getD chunk_id "") = some eid) :
    (ChunkInferCache.preOf m hashs chunk_id).getLast? = some (chunk_id, eid) := by
  unfold ChunkInferCache.preOf
  rw [List.range_succ, List.filterMap_append]
  have h2 : List.filterMap
      (fun i => (lookupA m (hashs.getD i "")).map (fun eid => (i, eid))) [chunk_id] =
      [(chunk_id, eid)] := by
    simp only [List.filterMap_cons, List.filterMap_nil]
    rw [h]
    rfl
  rw [h2]
  exact List.getLast?_concat _

theorem preOf_getLast_fst_ne (m : List (String × Nat)) (hashs : List String) (chunk_id : Nat)
    (hkey : lookupA m (hashs.getD chunk_id "") = none) :
    ¬ (ChunkInferCache.preOf m hashs chunk_id).getLast?.map Prod.fst = some chunk_id := by
  intro hcon
  rcases hl : (ChunkInferCache.preOf m hashs chunk_id).getLast? with _ | pl
  · rw [hl] at hcon
    cases hcon
  · rw [hl] at hcon
    obtain ⟨i, e⟩ := pl
    simp only [Option.map_some', Option.some_inj] at hcon
    have hmem : (i, e) ∈ ChunkInferCache.preOf m hashs chunk_id :=
      List.mem_of_mem_getLast? hl
    have h1 := (preOf_mem m hashs chunk_id hmem).1
    rw [show i = chunk_id from hcon, hkey] at h1
    cases h1

theorem selectEnding_some {preLast : Nat} {slots : List SeqEntryList} {tsl : SeqEntryList}
    (h : ChunkInferCache.selectEnding preLast slots = some tsl) :
    tsl ∈ slots ∧ tsl.seq_entries.getLast? = some preLast := by
  unfold ChunkInferCache.selectEnding at h
  refine ⟨List.mem_reverse.mp (List.mem_of_find?_eq_some h), ?_⟩
  have := List.find?_some h
  simpa using this

theorem selectEnding_none_iff (preLast : Nat) (slots : List SeqEntryList) :
    ChunkInferCache.selectEnding preLast slots = none ↔
      ∀ sl ∈ slots, ¬ sl.seq_entries.getLast? = some preLast := by
  unfold ChunkInferCache.selectEnding
  rw [List.find?_eq_none]
  constructor
  · intro h sl hmem
    have := h sl (List.mem_reverse.mpr hmem)
    simpa using this
  · intro h sl hmem
    have := h sl (List.mem_reverse.mp hmem)
    simpa using this

theorem selectEmpty_some {slots : List SeqEntryList} {tsl : SeqEntryList}
    (h : ChunkInferCache.selectEmpty slots = some tsl) :
    tsl ∈ slots ∧ tsl.seq_entries = [] := by
  unfold ChunkInferCache.selectEmpty at h
  refine ⟨List.mem_reverse.mp (List.mem_of_find?_eq_some h), ?_⟩
  have := List.find?_some h
  simpa using this

theorem selectEmpty_none_iff (slots : List SeqEntryList) :
    ChunkInferCache.selectEmpty slots = none ↔ ∀ sl ∈ slots, sl.seq_entries ≠ [] := by
  unfold ChunkInferCache.selectEmpty
  rw [List.find?_eq_none]
  constructor
  · intro h sl hmem
    have := h sl (List.mem_reverse.mpr hmem)
    simpa using this
  · intro h sl hmem
    have := h sl (List.mem_reverse.mp hmem)
    simpa using this

/-! ## C5 — ChunkInferCache::store target selection and the new entry -/

/-- C5: with `s1` the state after the initial `maintain()` and the stored
hash at `chunk_id` not yet published, `store` picks its target slot by the
source's preference rule — when a prefix entry exists, a slot whose entry
list ends with the last prefix entry; otherwise (also when no such slot
exists) a slot with an empty entry list; with neither available it returns
`false` and publishes nothing (map, slots and entry table unchanged).  On
success the new entry is published under the hash with
`pos_begin = 0` for an empty prefix and `pos_begin = pos_end` of the last
prefix entry otherwise, `pos_end = n_past`, the given `last_token`, and
`reference_count = 1`. -/
theorem chunkInferCache_store_selection
    (s0 : ChunkInferCache) (now : Nat) (hashs : List String) (chunk_id : Nat) (lt np : Int)
    (s1 : ChunkInferCache) (hs1 : s1 = ChunkInferCache.maintain s0)
    (pre : List (Nat × Nat)) (hpre : pre = ChunkInferCache.preOf s1.cache_map hashs chunk_id)
    (tgt : Option SeqEntryList)
    (htgt : tgt = ChunkInferCache.selectTarget s1.use_seq_mem (pre.getLast?.map Prod.snd))
    (hkey : lookupA s1.cache_map (hashs.getD chunk_id "") = none) :
    ((ChunkInferCache.store now hashs chunk_id lt np s0).1 = true ↔ tgt.isSome) ∧
    (tgt = none →
      (ChunkInferCache.store now hashs chunk_id lt np s0).2.cache_map = s1.cache_map ∧
      (ChunkInferCache.store now hashs chunk_id lt np s0).2.use_seq_mem = s1.use_seq_mem ∧
      (ChunkInferCache.store now hashs chunk_id lt np s0).2.entries = s1.entries) ∧
    (∀ pl, pre.getLast? = some pl →
      (∀ tsl, ChunkInferCache.selectEnding pl.2 s1.use_seq_mem = some tsl →
        tgt = some tsl ∧ tsl ∈ s1.use_seq_mem ∧ tsl.seq_entries.getLast? = some pl.2) ∧
      (ChunkInferCache.selectEnding pl.2 s1.use_seq_mem = none →
        tgt = ChunkInferCache.selectEmpty s1.use_seq_mem)) ∧
    (pre.getLast? = none → tgt = ChunkInferCache.selectEmpty s1.use_seq_mem) ∧
    (∀ tsl, ChunkInferCache.selectEmpty s1.use_seq_mem = some tsl →
      tsl ∈ s1.use_seq_mem ∧ tsl.seq_entries = []) ∧
    (ChunkInferCache.selectEmpty s1.use_seq_mem = none ↔
      ∀ sl ∈ s1.use_seq_mem, sl.seq_entries ≠ []) ∧
    ((ChunkInferCache.store now hashs chunk_id lt np s0).1 = true →
      lookupA (ChunkInferCache.store now hashs chunk_id lt np s0).2.cache_map
          (hashs.getD chunk_id "") = some s1.next_id ∧
      (ChunkInferCache.store now hashs chunk_id lt np s0).2.entries.getLast? =
        some (s1.next_id,
          { prompt_hash := hashs.getD chunk_id ""
            pos_begin := match pre.getLast? with
              | none => 0
              | some pl => (s1.getEntry pl.2).pos_end
            pos_end := np
            last_token := lt
            reference_count := 1 })) := by
  have hstore : ChunkInferCache.store now hashs chunk_id lt np s0 =
      ChunkInferCache.store_core now hashs chunk_id lt np s1 := by
    rw [hs1]
    rfl
  have hne : ¬ (ChunkInferCache.preOf s1.cache_map hashs chunk_id).getLast?.map Prod.fst =
      some chunk_id := preOf_getLast_fst_ne s1.cache_map hashs chunk_id hkey
  subst hpre
  subst htgt
  -- the selection facts (independent of the store result)
  have hC : ∀ pl, (ChunkInferCache.preOf s1.cache_map hashs chunk_id).getLast? = some pl →
      (∀ tsl, ChunkInferCache.selectEnding pl.2 s1.use_seq_mem = some tsl →
        ChunkInferCache.selectTarget s1.use_seq_mem
            ((ChunkInferCache.preOf s1.cache_map hashs chunk_id).getLast?.map Prod.snd) =
            some tsl ∧
        tsl ∈ s1.use_seq_mem ∧ tsl.seq_entries.getLast? = some pl.2) ∧
      (ChunkInferCache.selectEnding pl.2 s1.use_seq_mem = none →
        ChunkInferCache.selectTarget s1.use_seq_mem
            ((ChunkInferCache.preOf s1.cache_map hashs chunk_id).getLast?.map Prod.snd) =
          ChunkInferCache.selectEmpty s1.use_seq_mem) := by
    intro pl hpl
    constructor
    · intro tsl hend
      have hsel := selectEnding_some hend
      refine ⟨?_, hsel.1, hsel.2⟩
      unfold ChunkInferCache.selectTarget
      rw [hpl]
      simp only [Option.map_some']
      rw [hend]
    · intro hend
      unfold ChunkInferCache.selectTarget
      rw [hpl]
      simp only [Option.map_some']
      rw [hend]
  have hE : (ChunkInferCache.preOf s1.cache_map hashs chunk_id).getLast? = none →
      ChunkInferCache.selectTarget s1.use_seq_mem
          ((ChunkInferCache.preOf s1.cache_map hashs chunk_id).getLast?.map Prod.snd) =
        ChunkInferCache.selectEmpty s1.use_seq_mem := by
    intro hpl
    unfold ChunkInferCache.selectTarget
    rw [hpl]
    rfl
  rcases hsel : ChunkInferCache.selectTarget s1.use_seq_mem
      ((ChunkInferCache.preOf s1.cache_map hashs chunk_id).getLast?.map Prod.snd)
    with _ | tsl
  · -- no target slot: store fails and publishes nothing
    have hres : ChunkInferCache.store_core now hashs chunk_id lt np s1 =
        (false, { s1 with cache_wait_set :=
          s1.cache_wait_set.filter (fun h => h ≠ hashs.getD chunk_id "") }) := by
      simp only [ChunkInferCache.store_core]
      rw [if_neg hne, hsel]
    rw [hsel] at hC hE
    rw [hstore, hres]
    refine ⟨?_, ?_, hC, hE, fun tsl h => selectEmpty_some h,
      selectEmpty_none_iff s1.use_seq_mem, ?_⟩
    · simp
    · intro _
      exact ⟨rfl, rfl, rfl⟩
    · intro hcon
      cases hcon
  · -- a target slot was chosen
    by_cases hemp : tsl.seq_entries = []
    · have hres : ChunkInferCache.store_core now hashs chunk_id lt np s1 =
          (true, { s1 with
            cache_wait_set :=
              s1.cache_wait_set.filter (fun h => h ≠ hashs.getD chunk_id "")
            entries := ((ChunkInferCache.preOf s1.cache_map hashs chunk_id).map Prod.snd).foldl
              (fun t eid => updateA t eid
                (fun e => { e with reference_count := e.reference_count + 1 })) s1.entries ++
              [(s1.next_id,
                { prompt_hash := hashs.getD chunk_id ""
                  pos_begin := match
                      (ChunkInferCache.preOf s1.cache_map hashs chunk_id).getLast? with
                    | none => 0
                    | some pl => (s1.getEntry pl.2).pos_end
                  pos_end := np
                  last_token := lt
                  reference_count := 1 })]
            use_seq_mem := s1.use_seq_mem.map (fun sl =>
              if sl.cache_seq_id = tsl.cache_seq_id then
                { sl with
                  seq_entries :=
                    (ChunkInferCache.preOf s1.cache_map hashs chunk_id).map Prod.snd ++
                      [s1.next_id]
                  last_pos := np
                  last_access := now }
              else sl)
            cache_map := setA s1.cache_map (hashs.getD chunk_id "") s1.next_id
            next_id := s1.next_id + 1 }) := by
        simp only [ChunkInferCache.store_core]
        rw [if_neg hne, hsel]
        simp only [if_pos hemp]
        rfl
      rw [hsel] at hC hE
      rw [hstore, hres]
      refine ⟨?_, ?_, hC, hE, fun tsl h => selectEmpty_some h,
        selectEmpty_none_iff s1.use_seq_mem, ?_⟩
      · simp
      · intro h
        cases h
      · intro _
        exact ⟨lookupA_setA_self _ _ _, List.getLast?_concat _⟩
    · have hres : ChunkInferCache.store_core now hashs chunk_id lt np s1 =
          (true, { s1 with
            cache_wait_set :=
              s1.cache_wait_set.filter (fun h => h ≠ hashs.getD chunk_id "")
            entries := s1.entries ++
              [(s1.next_id,
                { prompt_hash := hashs.getD chunk_id ""
                  pos_begin := match
                      (ChunkInferCache.preOf s1.cache_map hashs chunk_id).getLast? with
                    | none => 0
                    | some pl => (s1.getEntry pl.2).pos_end
                  pos_end := np
                  last_token := lt
                  reference_count := 1 })]
            use_seq_mem := s1.use_seq_mem.map (fun sl =>
              if sl.cache_seq_id = tsl.cache_seq_id then
                { sl with
                  seq_entries := sl.seq_entries ++ [s1.next_id]
                  last_pos := np
                  last_access := now }
              else sl)
            cache_map := setA s1.cache_map (hashs.getD chunk_id "") s1.next_id
            next_id := s1.next_id + 1 }) := by
        simp only [ChunkInferCache.store_core]
        rw [if_neg hne, hsel]
        simp only [if_neg hemp]
        rfl
      rw [hsel] at hC hE
      rw [hstore, hres]
      refine ⟨?_, ?_, hC, hE, fun tsl h => selectEmpty_some h,
        selectEmpty_none_iff s1.use_seq_mem, ?_⟩
      · simp
      · intro h
        cases h
      · intro _
        exact ⟨lookupA_setA_self _ _ _, List.getLast?_concat _⟩

/-- C5 witness: storing hash `"a"` for chunk 0 on a fresh cache with two
empty slots succeeds and publishes the new entry (id 0) under `"a"`. -/
theorem chunkInferCache_store_selection_witness :
    (ChunkInferCache.store 5 ["a"] 0 7 4 (ChunkInferCache.init 1 3)).1 = true ∧
    lookupA (ChunkInferCache.store 5 ["a"] 0 7 4
      (ChunkInferCache.init 1 3)).2.cache_map "a" = some 0 := by
  have H := chunkInferCache_store_selection (ChunkInferCache.init 1 3) 5 ["a"] 0 7 4
    _ rfl _ rfl _ rfl (by decide)
  refine ⟨H.1.mpr (by decide), ?_⟩
  exact (H.2.2.2.2.2.2 (H.1.mpr (by decide))).1

/-! ## C6 — the reference-count invariant of ChunkInferCache -/

/-- C6 counterexample: the claim as stated fails for `store` calls whose
hash prefix contains a duplicate (the positions `0` and `1` both carry
hash `"h"`, as happens for a chunk with an empty descriptor or a hash
collision).  Starting from a fresh two-slot cache, storing `["h"]`,
then `["h","g1"]`, then `["h","h","g2"]` makes `store` splice the entry
for `"h"` twice into the empty slot and increment its `reference_count`
twice: the count ends at 3 while only 2 slots contain the entry. -/
theorem chunkInferCache_refcount_broken_by_duplicate_hash :
    ChunkInferCache.refcOf
        ((ChunkInferCache.store 3 ["h", "h", "g2"] 2 9 9
          ((ChunkInferCache.store 2 ["h", "g1"] 1 8 6
            ((ChunkInferCache.store 1 ["h"] 0 7 3
              (ChunkInferCache.init 0 2)).2)).2)).2) 0 = 3 ∧
    ChunkInferCache.slotsContaining
        ((ChunkInferCache.store 3 ["h", "h", "g2"] 2 9 9
          ((ChunkInferCache.store 2 ["h", "g1"] 1 8 6
            ((ChunkInferCache.store 1 ["h"] 0 7 3
              (ChunkInferCache.init 0 2)).2)).2)).2) 0 = 2 := by
  constructor
  · decide
  · decide

/-! ### Lemmas about the eviction decrement stream (ChunkInferCache.decList) -/

theorem setA_present_map_fst [DecidableEq α] {l : List (α × β)} {k : α} {w : β}
    (h : lookupA l k = some w) (v : β) : (setA l k v).map Prod.fst = l.map Prod.fst := by
  induction l with
  | nil => cases h
  | cons p ps ih =>
    by_cases hp : p.1 = k
    · simp [setA, hp]
    · simp only [lookupA, if_neg hp] at h
      simp [setA, hp, ih h]

theorem decList_lookup (L : List Nat) :
    ∀ (t : List (Nat × CacheEntry)) (keys : List String) (k : Nat),
      lookupA (ChunkInferCache.decList L t keys).1 k =
        (lookupA t k).map
          (fun e => { e with reference_count := e.reference_count - (L.count k : Int) }) := by
  induction L with
  | nil =>
    intro t keys k
    rcases h : lookupA t k with _ | e
    · simp [ChunkInferCache.decList, h]
    · simp [ChunkInferCache.decList, h]
  | cons x R ih =>
    intro t keys k
    show lookupA (ChunkInferCache.decList R (ChunkInferCache.decStep t keys x).1
      (ChunkInferCache.decStep t keys x).2).1 k = _
    rcases ho : lookupA t x with _ | e
    · have hstep : ChunkInferCache.decStep t keys x = (t, keys) := by
        unfold ChunkInferCache.decStep
        rw [ho]
      rw [hstep]
      rw [ih t keys k]
      by_cases hk : k = x
      · rw [hk, ho]
        simp
      · have hcnt : (x :: R).count k = R.count k := by
          simp [List.count_cons, hk, Ne.symm hk]
        rw [hcnt]
    · have hstep : ChunkInferCache.decStep t keys x =
          (setA t x { e with reference_count := e.reference_count - 1 },
           if e.reference_count - 1 ≤ 0 then keys ++ [e.prompt_hash] else keys) := by
        unfold ChunkInferCache.decStep
        rw [ho]
      rw [hstep]
      rw [ih _ _ k]
      by_cases hk : k = x
      · rw [hk]
        rw [lookupA_setA_self, ho]
        simp only [Option.map_some', Option.some_inj]
        have hcnt : (x :: R).count x = R.count x + 1 := by
          simp [List.count_cons]
        rw [hcnt]
        cases e with
        | mk ph pb pe ltk rc =>
          simp only [CacheEntry.mk.injEq, true_and]
          push_cast
          ring
      · rw [lookupA_setA_ne _ _ _ _ hk]
        have hcnt : (x :: R).count k = R.count k := by
          simp [List.count_cons, hk, Ne.symm hk]
        rw [hcnt]

theorem decList_map_fst (L : List Nat) :
    ∀ (t : List (Nat × CacheEntry)) (keys : List String),
      ((ChunkInferCache.decList L t keys).1).map Prod.fst = t.map Prod.fst := by
  induction L with
  | nil => intro t keys; rfl
  | cons x R ih =>
    intro t keys
    show ((ChunkInferCache.decList R (ChunkInferCache.decStep t keys x).1
      (ChunkInferCache.decStep t keys x).2).1).map Prod.fst = _
    rcases ho : lookupA t x with _ | e
    · have hstep : ChunkInferCache.decStep t keys x = (t, keys) := by
        unfold ChunkInferCache.decStep
        rw [ho]
      rw [hstep, ih]
    · have hstep : ChunkInferCache.decStep t keys x =
          (setA t x { e with reference_count := e.reference_count - 1 },
           if e.reference_count - 1 ≤ 0 then keys ++ [e.prompt_hash] else keys) := by
        unfold ChunkInferCache.decStep
        rw [ho]
      rw [hstep, ih, setA_present_map_fst ho]

theorem decList_keys_mem (L : List Nat) :
    ∀ (t : List (Nat × CacheEntry)) (keys : List String) (h : String),
      h ∈ (ChunkInferCache.decList L t keys).2 ↔
        h ∈ keys ∨ ∃ eid, eid ∈ L ∧ ∃ e, lookupA t eid = some e ∧ e.prompt_hash = h ∧
          e.reference_count ≤ (L.count eid : Int) := by
  induction L with
  | nil =>
    intro t keys h
    simp [ChunkInferCache.decList]
  | cons x R ih =>
    intro t keys h
    show h ∈ (ChunkInferCache.decList R (ChunkInferCache.decStep t keys x).1
      (ChunkInferCache.decStep t keys x).2).2 ↔ _
    rcases ho : lookupA t x with _ | e
    · have hstep : ChunkInferCache.decStep t keys x = (t, keys) := by
        unfold ChunkInferCache.decStep
        rw [ho]
      rw [hstep]
      rw [ih t keys h]
      constructor
      · rintro (hk | ⟨eid, hR, e', hl, hh, hc⟩)
        · exact Or.inl hk
        · have hne : eid ≠ x := by
            intro he
            rw [he, ho] at hl
            cases hl
          refine Or.inr ⟨eid, List.mem_cons_of_mem _ hR, e', hl, hh, ?_⟩
          have : (x :: R).count eid = R.count eid := by
            simp [List.count_cons, hne, Ne.symm hne]
          rw [this]
          exact hc
      · rintro (hk | ⟨eid, hmem, e', hl, hh, hc⟩)
        · exact Or.inl hk
        · have hne : eid ≠ x := by
            intro he
            rw [he, ho] at hl
            cases hl
          have hR : eid ∈ R := by
            rcases List.mem_cons.mp hmem with he | he
            · exact absurd he hne
            · exact he
          refine Or.inr ⟨eid, hR, e', hl, hh, ?_⟩
          have : (x :: R).count eid = R.count eid := by
            simp [List.count_cons, hne, Ne.symm hne]
          rw [this] at hc
          exact hc
    · have hstep : ChunkInferCache.decStep t keys x =
          (setA t x { e with reference_count := e.reference_count - 1 },
           if e.reference_count - 1 ≤ 0 then keys ++ [e.prompt_hash] else keys) := by
        unfold ChunkInferCache.decStep
        rw [ho]
      rw [hstep]
      rw [ih _ _ h]
      have hlx : lookupA (setA t x { e with reference_count := e.reference_count - 1 }) x =
          some { e with reference_count := e.reference_count - 1 } := lookupA_setA_self _ _ _
      have hkm : h ∈ (if e.reference_count - 1 ≤ 0 then keys ++ [e.prompt_hash] else keys) ↔
          h ∈ keys ∨ (e.reference_count ≤ 1 ∧ e.prompt_hash = h) := by
        by_cases hc : e.reference_count - 1 ≤ 0
        · rw [if_pos hc]
          simp only [List.mem_append, List.mem_singleton]
          constructor
          · rintro (hk | hk)
            · exact Or.inl hk
            · exact Or.inr ⟨by omega, hk.symm⟩
          · rintro (hk | ⟨_, hk⟩)
            · exact Or.inl hk
            · exact Or.inr hk.symm
        · rw [if_neg hc]
          constructor
          · exact Or.inl
          · rintro (hk | ⟨hk, _⟩)
            · exact hk
            · omega
      have hcnt_x : ((x :: R).count x : Int) = (R.count x : Int) + 1 := by
        have : (x :: R).count x = R.count x + 1 := by simp [List.count_cons]
        rw [this]
        push_cast
        ring
      constructor
      · rintro (hk | ⟨eid, hR, e', hl, hh, hc⟩)
        · rcases hkm.mp hk with hk' | ⟨hrc, hhash⟩
          · exact Or.inl hk'
          · refine Or.inr ⟨x, List.mem_cons_self _ _, e, ho, hhash, ?_⟩
            rw [hcnt_x]
            have : (0 : Int) ≤ (R.count x : Int) := Int.natCast_nonneg _
            omega
        · by_cases hex : eid = x
          · subst hex
            rw [hlx] at hl
            obtain rfl := Option.some_inj.mp hl
            refine Or.inr ⟨eid, List.mem_cons_self _ _, e, ho, hh, ?_⟩
            simp only at hc
            rw [hcnt_x]
            omega
          · rw [lookupA_setA_ne _ _ _ _ hex] at hl
            refine Or.inr ⟨eid, List.mem_cons_of_mem _ hR, e', hl, hh, ?_⟩
            have : (x :: R).count eid = R.count eid := by
              simp [List.count_cons, hex, Ne.symm hex]
            rw [this]
            exact hc
      · rintro (hk | ⟨eid, hmem, e', hl, hh, hc⟩)
        · exact Or.inl (hkm.mpr (Or.inl hk))
        · by_cases hex : eid = x
          · subst hex
            rw [ho] at hl
            obtain rfl := Option.some_inj.mp hl
            rw [hcnt_x] at hc
            by_cases hmemR : eid ∈ R
            · refine Or.inr ⟨eid, hmemR, { e with reference_count := e.reference_count - 1 },
                hlx, hh, ?_⟩
              simp only
              omega
            · have hzero : R.count eid = 0 := List.count_eq_zero.mpr hmemR
              rw [hzero] at hc
              simp only [Nat.cast_zero, zero_add] at hc
              exact Or.inl (hkm.mpr (Or.inr ⟨hc, hh⟩))
          · have hR : eid ∈ R := by
              rcases List.mem_cons.mp hmem with he | he
              · exact absurd he hex
              · exact he
            refine Or.inr ⟨eid, hR, e', ?_, hh, ?_⟩
            · rw [lookupA_setA_ne _ _ _ _ hex]
              exact hl
            · have : (x :: R).count eid = R.count eid := by
                simp [List.count_cons, hex, Ne.symm hex]
              rw [this] at hc
              exact hc

theorem decList_append (a b : List Nat) :
    ∀ (t : List (Nat × CacheEntry)) (keys : List String),
      ChunkInferCache.decList (a ++ b) t keys =
        ChunkInferCache.decList b (ChunkInferCache.decList a t keys).1
          (ChunkInferCache.decList a t keys).2 := by
  induction a with
  | nil => intro t keys; rfl
  | cons x r ih =>
    intro t keys
    show ChunkInferCache.decList (r ++ b) (ChunkInferCache.decStep t keys x).1
      (ChunkInferCache.decStep t keys x).2 = _
    rw [ih]
    rfl

theorem streamOf_cons (id : Nat) (ids : List Nat) (slots : List SeqEntryList) :
    ChunkInferCache.streamOf (id :: ids) slots =
      (match slots.find? (fun sl => sl.cache_seq_id = id) with
        | none => []
        | some sl => sl.seq_entries) ++ ChunkInferCache.streamOf ids slots := by
  simp [ChunkInferCache.streamOf]

theorem evictIds_eq (ids : List Nat) :
    ∀ (slots : List SeqEntryList) (t : List (Nat × CacheEntry)) (keys : List String),
      ChunkInferCache.evictIds ids slots t keys =
        ChunkInferCache.decList (ChunkInferCache.streamOf ids slots) t keys := by
  induction ids with
  | nil => intro slots t keys; rfl
  | cons id ids ih =>
    intro slots t keys
    have e1 : ChunkInferCache.evictIds (id :: ids) slots t keys =
        (match slots.find? (fun sl => sl.cache_seq_id = id) with
         | none => ChunkInferCache.evictIds ids slots t keys
         | some sl =>
           let r := ChunkInferCache.decList sl.seq_entries t keys
           ChunkInferCache.evictIds ids slots r.1 r.2) := rfl
    rcases hf : slots.find? (fun sl => sl.cache_seq_id = id) with _ | sl
    · rw [e1, hf, ih, streamOf_cons, hf]
      rfl
    · rw [e1, hf]
      show ChunkInferCache.evictIds ids slots
        (ChunkInferCache.decList sl.seq_entries t keys).1
        (ChunkInferCache.decList sl.seq_entries t keys).2 = _
      rw [ih, streamOf_cons, hf, decList_append]

theorem streamOf_eq_flatten (ids : List Nat) (slots : List SeqEntryList) :
    ChunkInferCache.streamOf ids slots =
      ((ChunkInferCache.chosenSlots ids slots).map (fun sl => sl.seq_entries)).flatten := by
  induction ids with
  | nil => rfl
  | cons id ids ih =>
    rcases hf : slots.find? (fun sl => sl.cache_seq_id = id) with _ | sl
    · have hch : ChunkInferCache.chosenSlots (id :: ids) slots =
          ChunkInferCache.chosenSlots ids slots := by
        unfold ChunkInferCache.chosenSlots
        simp only [List.filterMap_cons]
        rw [hf]
      rw [streamOf_cons, hf, hch, ← ih]
      rfl
    · have hch : ChunkInferCache.chosenSlots (id :: ids) slots =
          sl :: ChunkInferCache.chosenSlots ids slots := by
        unfold ChunkInferCache.chosenSlots
        simp only [List.filterMap_cons]
        rw [hf]
      rw [streamOf_cons, hf, hch, List.map_cons, List.flatten_cons, ← ih]

theorem flatten_count_of_nodup (cs : List SeqEntryList)
    (h : ∀ sl ∈ cs, sl.seq_entries.Nodup) (eid : Nat) :
    ((cs.map (fun sl => sl.seq_entries)).flatten).count eid =
      (cs.filter (fun sl => eid ∈ sl.seq_entries)).length := by
  induction cs with
  | nil => rfl
  | cons c rest ih =>
    have hc := h c (List.mem_cons_self _ _)
    have hrest := fun sl hm => h sl (List.mem_cons_of_mem _ hm)
    simp only [List.map_cons, List.flatten_cons, List.count_append]
    rw [ih hrest]
    by_cases hm : eid ∈ c.seq_entries
    · rw [List.count_eq_one_of_mem hc hm]
      simp [List.filter_cons, hm]
      omega
    · rw [List.count_eq_zero_of_not_mem hm]
      simp [List.filter_cons, hm]

theorem find?_id_unique (slots : List SeqEntryList) (sl : SeqEntryList)
    (hnd : (slots.map (fun x => x.cache_seq_id)).Nodup) (hmem : sl ∈ slots) :
    slots.find? (fun y => y.cache_seq_id = sl.cache_seq_id) = some sl := by
  induction slots with
  | nil => cases hmem
  | cons y rest ih =>
    simp only [List.map_cons, List.nodup_cons] at hnd
    rcases List.mem_cons.mp hmem with he | he
    · subst he
      rw [List.find?_cons_of_pos _ (by simp)]
    · have hne : ¬ y.cache_seq_id = sl.cache_seq_id := by
        intro hcon
        exact hnd.1 (hcon ▸ List.mem_map.mpr ⟨sl, he, rfl⟩)
      rw [List.find?_cons_of_neg _ (by simp [hne])]
      exact ih hnd.2 he

theorem mem_chosenSlots {ids : List Nat} {slots : List SeqEntryList} {sl : SeqEntryList}
    (h : sl ∈ ChunkInferCache.chosenSlots ids slots) :
    sl ∈ slots ∧ sl.cache_seq_id ∈ ids := by
  unfold ChunkInferCache.chosenSlots at h
  obtain ⟨id, hid, hf⟩ := List.mem_filterMap.mp h
  have h1 := List.mem_of_find?_eq_some hf
  have h2 := List.find?_some hf
  simp only [decide_eq_true_eq] at h2
  exact ⟨h1, h2 ▸ hid⟩

theorem chosenSlots_mem_of (ids : List Nat) (slots : List SeqEntryList) (sl : SeqEntryList)
    (hnd : (slots.map (fun x => x.cache_seq_id)).Nodup) (hmem : sl ∈ slots)
    (hid : sl.cache_seq_id ∈ ids) : sl ∈ ChunkInferCache.chosenSlots ids slots := by
  unfold ChunkInferCache.chosenSlots
  exact List.mem_filterMap.mpr ⟨sl.cache_seq_id, hid, find?_id_unique slots sl hnd hmem⟩

theorem chosenSlots_map_id (ids : List Nat) (slots : List SeqEntryList) :
    (ChunkInferCache.chosenSlots ids slots).map (fun sl => sl.cache_seq_id) =
      ids.filter (fun id => (slots.find? (fun sl => sl.cache_seq_id = id)).isSome) := by
  induction ids with
  | nil => rfl
  | cons id ids ih =>
    rcases hf : slots.find? (fun sl => sl.cache_seq_id = id) with _ | sl
    · have hch : ChunkInferCache.chosenSlots (id :: ids) slots =
          ChunkInferCache.chosenSlots ids slots := by
        unfold ChunkInferCache.chosenSlots
        simp only [List.filterMap_cons]
        rw [hf]
      rw [hch, ih, List.filter_cons]
      simp [hf]
    · have hch : ChunkInferCache.chosenSlots (id :: ids) slots =
          sl :: ChunkInferCache.chosenSlots ids slots := by
        unfold ChunkInferCache.chosenSlots
        simp only [List.filterMap_cons]
        rw [hf]
      have h2 : sl.cache_seq_id = id := by simpa using List.find?_some hf
      rw [hch, List.map_cons, ih, h2, List.filter_cons]
      simp [hf]

theorem chosenSlots_nodup (ids : List Nat) (slots : List SeqEntryList) (hids : ids.Nodup)
    (_hnd : (slots.map (fun x => x.cache_seq_id)).Nodup) :
    (ChunkInferCache.chosenSlots ids slots).Nodup := by
  have h1 : ((ChunkInferCache.chosenSlots ids slots).map (fun sl => sl.cache_seq_id)).Nodup := by
    rw [chosenSlots_map_id]
    exact hids.filter _
  exact List.Nodup.of_map _ h1

theorem chosenSlots_perm (ids : List Nat) (slots : List SeqEntryList) (hids : ids.Nodup)
    (hnd : (slots.map (fun x => x.cache_seq_id)).Nodup) :
    List.Perm (ChunkInferCache.chosenSlots ids slots)
      (slots.filter (fun sl => sl.cache_seq_id ∈ ids)) := by
  have hslots_nd : slots.Nodup := List.Nodup.of_map _ hnd
  refine (List.subperm_of_subset (chosenSlots_nodup ids slots hids hnd) ?_).antisymm
    (List.subperm_of_subset (hslots_nd.filter _) ?_)
  · intro sl hsl
    have h := mem_chosenSlots hsl
    exact List.mem_filter.mpr ⟨h.1, by simpa using h.2⟩
  · intro sl hsl
    have h := List.mem_filter.mp hsl
    exact chosenSlots_mem_of ids slots sl hnd h.1 (by simpa using h.2)

theorem streamOf_count (ids : List Nat) (slots : List SeqEntryList) (eid : Nat)
    (hids : ids.Nodup) (hnd : (slots.map (fun x => x.cache_seq_id)).Nodup)
    (hslnd : ∀ sl ∈ slots, sl.seq_entries.Nodup) :
    (ChunkInferCache.streamOf ids slots).count eid =
      (slots.filter (fun sl => sl.cache_seq_id ∈ ids ∧ eid ∈ sl.seq_entries)).length := by
  rw [streamOf_eq_flatten]
  rw [flatten_count_of_nodup _ (fun sl hm => hslnd sl (mem_chosenSlots hm).1) eid]
  have hperm := (chosenSlots_perm ids slots hids hnd).filter
    (fun sl => decide (eid ∈ sl.seq_entries))
  rw [hperm.length_eq]
  rw [List.filter_filter]
  refine congrArg List.length (List.filter_congr ?_)
  intro sl _
  by_cases h1 : sl.cache_seq_id ∈ ids <;> by_cases h2 : eid ∈ sl.seq_entries <;>
    simp [h1, h2]

theorem slots_filter_split (l : List SeqEntryList) (D : List Nat) (eid : Nat) :
    (l.filter (fun sl => eid ∈ sl.seq_entries)).length =
      (l.filter (fun sl => sl.cache_seq_id ∈ D ∧ eid ∈ sl.seq_entries)).length +
      (l.filter (fun sl => ¬ sl.cache_seq_id ∈ D ∧ eid ∈ sl.seq_entries)).length := by
  induction l with
  | nil => rfl
  | cons a l ih =>
    by_cases hd : a.cache_seq_id ∈ D <;> by_cases hm : eid ∈ a.seq_entries <;>
      simp [List.filter_cons, hd, hm, ih] <;> omega

theorem slotsContaining_evict (l : List SeqEntryList) (D : List Nat) (eid : Nat) :
    ((l.map (fun sl => if sl.cache_seq_id ∈ D then
        { sl with seq_entries := ([] : List Nat), last_pos := 0 } else sl)).filter
      (fun sl => eid ∈ sl.seq_entries)).length =
      (l.filter (fun sl => ¬ sl.cache_seq_id ∈ D ∧ eid ∈ sl.seq_entries)).length := by
  induction l with
  | nil => rfl
  | cons a l ih =>
    by_cases hd : a.cache_seq_id ∈ D <;> by_cases hm : eid ∈ a.seq_entries <;>
      simp [List.filter_cons, hd, hm, ih]

theorem mem_streamOf {ids : List Nat} {slots : List SeqEntryList} {eid : Nat}
    (h : eid ∈ ChunkInferCache.streamOf ids slots) :
    ∃ sl ∈ slots, eid ∈ sl.seq_entries := by
  rw [streamOf_eq_flatten] at h
  obtain ⟨a, ha, hm⟩ := List.mem_flatten.mp h
  obtain ⟨sl, hsl, rfl⟩ := List.mem_map.mp ha
  exact ⟨sl, (mem_chosenSlots hsl).1, hm⟩

theorem Inv_evict (s : ChunkInferCache) (hInv : ChunkInferCache.Inv s) (D : List Nat)
    (hD : D.Nodup) :
    ChunkInferCache.Inv { s with
      entries := (ChunkInferCache.evictIds D s.use_seq_mem s.entries []).1
      use_seq_mem := s.use_seq_mem.map (fun sl => if sl.cache_seq_id ∈ D then
        { sl with seq_entries := [], last_pos := 0 } else sl)
      cache_map := s.cache_map.filter
        (fun p => p.1 ∉ (ChunkInferCache.evictIds D s.use_seq_mem s.entries []).2) } := by
  obtain ⟨h1, h2, h3, h4, h5, h6, h7, h8, h9, h10, h11⟩ := hInv
  set slots := s.use_seq_mem with hslots
  set r := ChunkInferCache.evictIds D slots s.entries [] with hrdef
  have hev : r = ChunkInferCache.decList (ChunkInferCache.streamOf D slots) s.entries [] :=
    evictIds_eq D slots s.entries []
  have hlk : ∀ k, lookupA r.1 k = (lookupA s.entries k).map
      (fun e => { e with reference_count :=
        e.reference_count - ((ChunkInferCache.streamOf D slots).count k : Int) }) := by
    intro k
    rw [hev]
    exact decList_lookup _ s.entries [] k
  have hkeys : ∀ hs : String, hs ∈ r.2 ↔ ∃ eid, eid ∈ ChunkInferCache.streamOf D slots ∧
      ∃ e, lookupA s.entries eid = some e ∧ e.prompt_hash = hs ∧
        e.reference_count ≤ ((ChunkInferCache.streamOf D slots).count eid : Int) := by
    intro hs
    rw [hev, decList_keys_mem _ s.entries [] hs]
    simp
  have hcnt : ∀ eid, (ChunkInferCache.streamOf D slots).count eid =
      (slots.filter (fun sl => sl.cache_seq_id ∈ D ∧ eid ∈ sl.seq_entries)).length :=
    fun eid => streamOf_count D slots eid hD h7 h6
  have hfst : r.1.map Prod.fst = s.entries.map Prod.fst := by
    rw [hev]
    exact decList_map_fst _ s.entries []
  have hmapE : ∀ p ∈ s.cache_map, ∃ e, lookupA s.entries p.2 = some e ∧
      e.prompt_hash = p.1 := by
    intro p hp
    have h := h5 p hp
    rcases hl : lookupA s.entries p.2 with _ | e
    · rw [hl] at h
      cases h
    · rw [hl] at h
      exact ⟨e, rfl, by simpa using h⟩
  have huniq : ∀ p ∈ s.cache_map, ∀ eid e, (∃ sl ∈ slots, eid ∈ sl.seq_entries) →
      lookupA s.entries eid = some e → e.prompt_hash = p.1 → eid = p.2 := by
    intro p hp eid e hsl hle hph
    obtain ⟨sl, hslm, heid⟩ := hsl
    obtain ⟨q, hq, hq2⟩ := h2 sl hslm eid heid
    obtain ⟨e', hle', hph'⟩ := hmapE q hq
    rw [hq2, hle] at hle'
    have hee : e = e' := Option.some_inj.mp hle'
    have hq1 : q.1 = p.1 := by
      rw [← hph', ← hee, hph]
    have hqp : q = p := List.inj_on_of_nodup_map h3 hq hp hq1
    rw [← hq2, hqp]
  have hdead_fwd : ∀ p ∈ s.cache_map, ∀ e, lookupA s.entries p.2 = some e → p.1 ∈ r.2 →
      e.reference_count ≤ ((ChunkInferCache.streamOf D slots).count p.2 : Int) := by
    intro p hp e hle hmem
    obtain ⟨eid, hst, e', hle', hph', hrc'⟩ := (hkeys p.1).mp hmem
    have heq : eid = p.2 := huniq p hp eid e' (mem_streamOf hst) hle' hph'
    rw [heq] at hle' hrc'
    rw [hle] at hle'
    rw [Option.some_inj.mp hle']
    exact hrc'
  have hdead_bwd : ∀ p ∈ s.cache_map, ∀ e, lookupA s.entries p.2 = some e →
      e.prompt_hash = p.1 →
      1 ≤ (ChunkInferCache.streamOf D slots).count p.2 →
      e.reference_count ≤ ((ChunkInferCache.streamOf D slots).count p.2 : Int) →
      p.1 ∈ r.2 := by
    intro p hp e hle hph hpos hrc
    refine (hkeys p.1).mpr ⟨p.2, ?_, e, hle, hph, hrc⟩
    exact List.count_pos_iff.mp hpos
  refine ⟨?_, ?_, ?_, ?_, ?_, ?_, ?_, ?_, ?_, ?_, ?_⟩
  · -- refcount = number of containing slots, and at least one slot
    intro p hp
    have hpm := List.mem_filter.mp hp
    have hpmem : p ∈ s.cache_map := hpm.1
    have hpnot : p.1 ∉ r.2 := by simpa using hpm.2
    obtain ⟨e, hle, hph⟩ := hmapE p hpmem
    have hrefc_s : ChunkInferCache.refcOf s p.2 = e.reference_count := by
      simp [ChunkInferCache.refcOf, ChunkInferCache.getEntry, hle]
    have h1p := h1 p hpmem
    have hsplit := slots_filter_split slots D p.2
    have hcontains' := slotsContaining_evict slots D p.2
    have hcontain_s : ChunkInferCache.slotsContaining s p.2 =
        (slots.filter (fun sl => p.2 ∈ sl.seq_entries)).length := rfl
    have hrc_eq : e.reference_count =
        ((slots.filter (fun sl => p.2 ∈ sl.seq_entries)).length : Int) := by
      rw [← hcontain_s, ← hrefc_s]
      exact h1p.1
    have hrefc' : ChunkInferCache.refcOf { s with
        entries := r.1
        use_seq_mem := slots.map (fun sl => if sl.cache_seq_id ∈ D then
          { sl with seq_entries := [], last_pos := 0 } else sl)
        cache_map := s.cache_map.filter (fun p => p.1 ∉ r.2) } p.2 =
        e.reference_count - ((ChunkInferCache.streamOf D slots).count p.2 : Int) := by
      simp [ChunkInferCache.refcOf, ChunkInferCache.getEntry, hlk p.2, hle]
    have hcontain' : ChunkInferCache.slotsContaining { s with
        entries := r.1
        use_seq_mem := slots.map (fun sl => if sl.cache_seq_id ∈ D then
          { sl with seq_entries := [], last_pos := 0 } else sl)
        cache_map := s.cache_map.filter (fun p => p.1 ∉ r.2) } p.2 =
        (slots.filter (fun sl => ¬ sl.cache_seq_id ∈ D ∧ p.2 ∈ sl.seq_entries)).length := by
      exact hcontains'
    rw [hrefc', hcontain']
    have hrest_pos : 1 ≤ (slots.filter
        (fun sl => ¬ sl.cache_seq_id ∈ D ∧ p.2 ∈ sl.seq_entries)).length := by
      by_contra hzero
      have hrest0 : (slots.filter
          (fun sl => ¬ sl.cache_seq_id ∈ D ∧ p.2 ∈ sl.seq_entries)).length = 0 := by omega
      have hceq : e.reference_count =
          ((ChunkInferCache.streamOf D slots).count p.2 : Int) := by
        rw [hcnt p.2]
        rw [hsplit, hrest0] at hrc_eq
        simpa using hrc_eq
      by_cases hcz : (ChunkInferCache.streamOf D slots).count p.2 = 0
      · rw [hcz] at hceq
        have : (1 : Int) ≤ 0 := by
          have hc1 := h1p.2
          rw [hcontain_s, hsplit, ← hcnt p.2, hcz, hrest0] at hc1
          exact_mod_cast hc1
        omega
      · exact hpnot (hdead_bwd p hpmem e hle hph (by omega) (le_of_eq hceq))
    constructor
    · rw [hcnt p.2] at hrefc' ⊢
      rw [hsplit] at hrc_eq
      push_cast at hrc_eq ⊢
      omega
    · exact hrest_pos
  · -- every slot entry is still published in the filtered map
    intro sl' hsl' eid heid
    obtain ⟨sl, hslm, rfl⟩ := List.mem_map.mp hsl'
    by_cases hd : sl.cache_seq_id ∈ D
    · simp [hd] at heid
    · simp only [if_neg hd] at heid
      obtain ⟨p, hpmem, hp2⟩ := h2 sl hslm eid heid
      refine ⟨p, List.mem_filter.mpr ⟨hpmem, ?_⟩, hp2⟩
      simp only [decide_eq_true_eq]
      intro hmem
      obtain ⟨e, hle, hph⟩ := hmapE p hpmem
      have hrc_le := hdead_fwd p hpmem e hle hmem
      have hrefc_s : ChunkInferCache.refcOf s p.2 = e.reference_count := by
        simp [ChunkInferCache.refcOf, ChunkInferCache.getEntry, hle]
      have h1p := h1 p hpmem
      have hsplit := slots_filter_split slots D p.2
      have hslin : sl ∈ slots.filter
          (fun sl => ¬ sl.cache_seq_id ∈ D ∧ p.2 ∈ sl.seq_entries) := by
        refine List.mem_filter.mpr ⟨hslm, ?_⟩
        simp only [decide_eq_true_eq]
        exact ⟨hd, hp2 ▸ heid⟩
      have hrest_pos : 0 < (slots.filter
          (fun sl => ¬ sl.cache_seq_id ∈ D ∧ p.2 ∈ sl.seq_entries)).length :=
        List.length_pos_of_mem hslin
      have hcontain_s : ChunkInferCache.slotsContaining s p.2 =
          (slots.filter (fun sl => p.2 ∈ sl.seq_entries)).length := rfl
      have : e.reference_count =
          ((slots.filter (fun sl => p.2 ∈ sl.seq_entries)).length : Int) := by
        rw [← hcontain_s, ← hrefc_s]
        exact h1p.1
      rw [hsplit, ← hcnt p.2] at this
      push_cast at this hrc_le
      omega
  · exact List.Nodup.sublist (List.Sublist.map _ (List.filter_sublist _)) h3
  · exact List.Nodup.sublist (List.Sublist.map _ (List.filter_sublist _)) h4
  · intro p hp
    have hpmem : p ∈ s.cache_map := (List.mem_filter.mp hp).1
    obtain ⟨e, hle, hph⟩ := hmapE p hpmem
    simp only [hlk p.2, hle, Option.map_some']
    rw [hph]
  · intro sl' hsl'
    obtain ⟨sl, hslm, rfl⟩ := List.mem_map.mp hsl'
    by_cases hd : sl.cache_seq_id ∈ D
    · simp [hd]
    · simp only [if_neg hd]
      exact h6 sl hslm
  · have hmapid : (slots.map (fun sl => if sl.cache_seq_id ∈ D then
        { sl with seq_entries := ([] : List Nat), last_pos := 0 } else sl)).map
          (fun sl => sl.cache_seq_id) = slots.map (fun sl => sl.cache_seq_id) := by
      rw [List.map_map]
      refine List.map_congr_left ?_
      intro sl _
      by_cases hd : sl.cache_seq_id ∈ D <;> simp [hd]
    rw [hmapid]
    exact h7
  · intro sl' hsl' eid heid
    obtain ⟨sl, hslm, rfl⟩ := List.mem_map.mp hsl'
    by_cases hd : sl.cache_seq_id ∈ D
    · simp [hd] at heid
    · simp only [if_neg hd] at heid
      exact h8 sl hslm eid heid
  · intro p hp
    exact h9 p (List.mem_filter.mp hp).1
  · rw [hfst]
    exact h10
  · intro p hp
    have hmem : p.1 ∈ s.entries.map Prod.fst := by
      rw [← hfst]
      exact List.mem_map_of_mem _ hp
    obtain ⟨q, hq, hq1⟩ := List.mem_map.mp hmem
    rw [← hq1]
    exact h11 q hq

theorem Inv_maintain (s : ChunkInferCache) (hInv : ChunkInferCache.Inv s) :
    ChunkInferCache.Inv (ChunkInferCache.maintain s) := by
  have h7 : (s.use_seq_mem.map (fun sl => sl.cache_seq_id)).Nodup := hInv.2.2.2.2.2.2.1
  simp only [ChunkInferCache.maintain]
  by_cases htr : (s.use_seq_mem.filter (fun sl => sl.seq_entries ≠ [])).length <
      s.use_seq_mem.length
  · rw [if_pos htr]
    exact hInv
  · rw [if_neg htr]
    have husedmap : ((s.use_seq_mem.filter (fun sl => sl.seq_entries ≠ [])).map
        (fun sl => sl.cache_seq_id)).Nodup :=
      List.Nodup.sublist (List.Sublist.map _ (List.filter_sublist _)) h7
    have hperm : List.Perm ((s.use_seq_mem.filter (fun sl => sl.seq_entries ≠ [])).mergeSort
        (fun a b => a.last_access ≤ b.last_access))
        (s.use_seq_mem.filter (fun sl => sl.seq_entries ≠ [])) :=
      List.mergeSort_perm _ _
    have hsortmap : (((s.use_seq_mem.filter (fun sl => sl.seq_entries ≠ [])).mergeSort
        (fun a b => a.last_access ≤ b.last_access)).map (fun sl => sl.cache_seq_id)).Nodup :=
      ((hperm.map _).nodup_iff).mpr husedmap
    have hD : ((((s.use_seq_mem.filter (fun sl => sl.seq_entries ≠ [])).mergeSort
        (fun a b => a.last_access ≤ b.last_access)).take
          ((s.use_seq_mem.filter (fun sl => sl.seq_entries ≠ [])).length -
            4 * s.use_seq_mem.length / 5)).map (fun sl => sl.cache_seq_id)).Nodup := by
      rw [List.map_take]
      exact List.Nodup.sublist (List.take_sublist _ _) hsortmap
    exact Inv_evict s hInv _ hD

theorem Inv_init (cb ce : Nat) : ChunkInferCache.Inv (ChunkInferCache.init cb ce) := by
  have hslot : ∀ sl ∈ (ChunkInferCache.init cb ce).use_seq_mem, sl.seq_entries = [] := by
    intro sl hsl
    simp only [ChunkInferCache.init] at hsl
    obtain ⟨i, _, rfl⟩ := List.mem_map.mp hsl
    rfl
  refine ⟨?_, ?_, ?_, ?_, ?_, ?_, ?_, ?_, ?_, ?_, ?_⟩
  · intro p hp
    simp [ChunkInferCache.init] at hp
  · intro sl hsl eid heid
    rw [hslot sl hsl] at heid
    cases heid
  · simp [ChunkInferCache.init]
  · simp [ChunkInferCache.init]
  · intro p hp
    simp [ChunkInferCache.init] at hp
  · intro sl hsl
    rw [hslot sl hsl]
    exact List.nodup_nil
  · simp only [ChunkInferCache.init]
    rw [List.map_map]
    have hcomp : ((fun sl => sl.cache_seq_id) ∘ (fun i : Nat =>
        ({ cache_seq_id := i, last_pos := 0, seq_entries := [], last_access := 0 } :
          SeqEntryList))) = id := by
      funext i
      rfl
    rw [hcomp, List.map_id]
    exact List.Nodup.sublist (List.drop_sublist _ _) (List.nodup_range _)
  · intro sl hsl eid heid
    rw [hslot sl hsl] at heid
    cases heid
  · intro p hp
    simp [ChunkInferCache.init] at hp
  · simp [ChunkInferCache.init]
  · intro p hp
    simp [ChunkInferCache.init] at hp

theorem incFold_lookup (L : List Nat) :
    ∀ (t : List (Nat × CacheEntry)) (k : Nat),
      lookupA (L.foldl (fun t eid => updateA t eid
        (fun e => { e with reference_count := e.reference_count + 1 })) t) k =
        (lookupA t k).map
          (fun e => { e with reference_count := e.reference_count + (L.count k : Int) }) := by
  induction L with
  | nil =>
    intro t k
    rcases h : lookupA t k with _ | e
    · simp [h]
    · simp [h]
  | cons x R ih =>
    intro t k
    rw [List.foldl_cons, ih]
    by_cases hk : k = x
    · subst hk
      rw [lookupA_updateA_self]
      rcases h : lookupA t k with _ | e
      · simp
      · simp only [Option.map_some', Option.some_inj]
        have hcnt : (k :: R).count k = R.count k + 1 := by simp [List.count_cons]
        rw [hcnt]
        cases e with
        | mk ph pb pe ltk rc =>
          simp only [CacheEntry.mk.injEq, true_and]
          push_cast
          ring
    · rw [lookupA_updateA_ne _ _ _ _ hk]
      have hcnt : (x :: R).count k = R.count k := by
        simp [List.count_cons, hk, Ne.symm hk]
      rw [hcnt]

theorem incFold_map_fst (L : List Nat) :
    ∀ (t : List (Nat × CacheEntry)),
      (L.foldl (fun t eid => updateA t eid
        (fun e => { e with reference_count := e.reference_count + 1 })) t).map Prod.fst =
        t.map Prod.fst := by
  induction L with
  | nil => intro t; rfl
  | cons x R ih =>
    intro t
    rw [List.foldl_cons, ih, updateA_map_fst]

theorem map_fst_filterMap_sublist (l : List Nat) (f : Nat → Option (Nat × Nat))
    (hf : ∀ i p, f i = some p → p.1 = i) :
    List.Sublist ((l.filterMap f).map Prod.fst) l := by
  induction l with
  | nil => exact List.Sublist.refl _
  | cons i l ih =>
    rw [List.filterMap_cons]
    rcases hfi : f i with _ | p
    · exact (ih).cons _
    · rw [List.map_cons, hf i p hfi]
      exact (ih).cons₂ _

theorem nodup_concat [DecidableEq α] (l : List α) (a : α) (hnd : l.Nodup) (ha : a ∉ l) :
    (l ++ [a]).Nodup := by
  rw [List.nodup_append]
  exact ⟨hnd, List.nodup_singleton _, fun x hx hmem => ha ((List.mem_singleton.mp hmem) ▸ hx)⟩

theorem nodup_id_split (l₁ l₂ : List SeqEntryList) (tsl : SeqEntryList)
    (h : ((l₁ ++ tsl :: l₂).map (fun sl => sl.cache_seq_id)).Nodup) :
    (∀ x ∈ l₁, x.cache_seq_id ≠ tsl.cache_seq_id) ∧
    (∀ x ∈ l₂, x.cache_seq_id ≠ tsl.cache_seq_id) := by
  rw [List.map_append, List.map_cons, List.nodup_append] at h
  constructor
  · intro x hx hcon
    exact h.2.2 (List.mem_map_of_mem _ hx) (by rw [hcon]; exact List.mem_cons_self _ _)
  · intro x hx hcon
    have hc := (List.nodup_cons.mp h.2.1).1
    exact hc (hcon ▸ List.mem_map_of_mem _ hx)

theorem map_ite_split (l₁ l₂ : List SeqEntryList) (tsl : SeqEntryList)
    (m : SeqEntryList → SeqEntryList)
    (h₁ : ∀ x ∈ l₁, x.cache_seq_id ≠ tsl.cache_seq_id)
    (h₂ : ∀ x ∈ l₂, x.cache_seq_id ≠ tsl.cache_seq_id) :
    (l₁ ++ tsl :: l₂).map
        (fun sl => if sl.cache_seq_id = tsl.cache_seq_id then m sl else sl) =
      l₁ ++ m tsl :: l₂ := by
  rw [List.map_append, List.map_cons, if_pos rfl]
  have e₁ : l₁.map (fun sl => if sl.cache_seq_id = tsl.cache_seq_id then m sl else sl) = l₁ := by
    have h := List.map_congr_left (l := l₁)
      (f := fun sl => if sl.cache_seq_id = tsl.cache_seq_id then m sl else sl) (g := id)
      (fun x hx => by
        show (if x.cache_seq_id = tsl.cache_seq_id then m x else x) = id x
        rw [if_neg (h₁ x hx)]
        rfl)
    rw [h, List.map_id]
  have e₂ : l₂.map (fun sl => if sl.cache_seq_id = tsl.cache_seq_id then m sl else sl) = l₂ := by
    have h := List.map_congr_left (l := l₂)
      (f := fun sl => if sl.cache_seq_id = tsl.cache_seq_id then m sl else sl) (g := id)
      (fun x hx => by
        show (if x.cache_seq_id = tsl.cache_seq_id then m x else x) = id x
        rw [if_neg (h₂ x hx)]
        rfl)
    rw [h, List.map_id]
  rw [e₁, e₂]

theorem getD_take_eq (l : List String) (n i : Nat) (d : String) (h : i < n) :
    (l.take n).getD i d = l.getD i d := by
  by_cases hi : i < l.length
  · rw [List.getD_eq_getElem _ _ (by simp; omega), List.getD_eq_getElem _ _ hi]
    simp [List.getElem_take]
  · have h1 : l.length ≤ i := le_of_not_lt hi
    have h2 : (l.take n).length ≤ i := by simp; omega
    rw [List.getD_eq_default _ _ h1, List.getD_eq_default _ _ h2]

theorem preOf_snd_nodup (m : List (String × Nat)) (hashs : List String) (cid : Nat)
    (h4 : (m.map Prod.snd).Nodup) (hlen : cid < hashs.length)
    (hnd : (hashs.take (cid + 1)).Nodup) :
    ((ChunkInferCache.preOf m hashs cid).map Prod.snd).Nodup := by
  have hfst : ((ChunkInferCache.preOf m hashs cid).map Prod.fst).Nodup := by
    refine List.Nodup.sublist (map_fst_filterMap_sublist _ _ ?_) (List.nodup_range _)
    intro i p hp
    rcases hl : lookupA m (hashs.getD i "") with _ | v
    · rw [hl] at hp
      cases hp
    · rw [hl] at hp
      simp only [Option.map_some', Option.some_inj] at hp
      rw [← hp]
  have hpre_nd : (ChunkInferCache.preOf m hashs cid).Nodup := List.Nodup.of_map _ hfst
  refine List.Nodup.map_on ?_ hpre_nd
  intro x hx y hy hxy
  obtain ⟨i, a⟩ := x
  obtain ⟨j, b⟩ := y
  have hxm := preOf_mem m hashs cid hx
  have hym := preOf_mem m hashs cid hy
  simp only at hxy
  have hxmem := lookupA_mem hxm.1
  have hymem := lookupA_mem hym.1
  rw [hxy] at hxmem
  have hkeyeq : hashs.getD i "" = hashs.getD j "" :=
    congrArg Prod.fst (List.inj_on_of_nodup_map h4 hxmem hymem rfl)
  have hi : i < cid + 1 := by have := hxm.2; omega
  have hj : j < cid + 1 := by have := hym.2; omega
  have hilen : i < hashs.length := by omega
  have hjlen : j < hashs.length := by omega
  have htl : (hashs.take (cid + 1)).length = cid + 1 := by
    simp
    omega
  have hil : i < (hashs.take (cid + 1)).length := by rw [htl]; omega
  have hjl : j < (hashs.take (cid + 1)).length := by rw [htl]; omega
  have g1 : (hashs.take (cid + 1))[i] = (hashs.take (cid + 1))[j] := by
    rw [List.getD_eq_getElem _ _ hilen, List.getD_eq_getElem _ _ hjlen] at hkeyeq
    simpa [List.getElem_take] using hkeyeq
  have hij : i = j := (List.Nodup.getElem_inj_iff hnd).mp g1
  subst hij
  rw [hxy]

theorem slotsContaining_split (l₁ l₂ : List SeqEntryList) (a : SeqEntryList) (eid : Nat) :
    ((l₁ ++ a :: l₂).filter (fun sl => eid ∈ sl.seq_entries)).length =
      (l₁.filter (fun sl => eid ∈ sl.seq_entries)).length +
      (if eid ∈ a.seq_entries then 1 else 0) +
      (l₂.filter (fun sl => eid ∈ sl.seq_entries)).length := by
  rw [List.filter_append, List.filter_cons]
  by_cases hm : eid ∈ a.seq_entries
  · simp [hm]
    omega
  · simp [hm]

theorem filter_mem_len_zero (l : List SeqEntryList) (eid : Nat)
    (h : ∀ sl ∈ l, eid ∉ sl.seq_entries) :
    (l.filter (fun sl => eid ∈ sl.seq_entries)).length = 0 := by
  induction l with
  | nil => rfl
  | cons a rest ih =>
    rw [List.filter_cons]
    have ha := h a (List.mem_cons_self _ _)
    simp only [ha]
    simp only [decide_eq_true_eq]
    rw [if_neg (by simp [ha])]
    exact ih (fun sl hm => h sl (List.mem_cons_of_mem _ hm))

theorem Inv_store_core (now : Nat) (hashs : List String) (chunk_id : Nat) (lt np : Int)
    (s : ChunkInferCache) (hInv : ChunkInferCache.Inv s) (hlen : chunk_id < hashs.length)
    (hnd : (hashs.take (chunk_id + 1)).Nodup) :
    ChunkInferCache.Inv (ChunkInferCache.store_core now hashs chunk_id lt np s).2 := by
  obtain ⟨h1, h2, h3, h4, h5, h6, h7, h8, h9, h10, h11⟩ := hInv
  by_cases hearly : (ChunkInferCache.preOf s.cache_map hashs chunk_id).getLast?.map Prod.fst =
      some chunk_id
  · have hres : ChunkInferCache.store_core now hashs chunk_id lt np s =
        (true, { s with cache_wait_set :=
          s.cache_wait_set.filter (fun h => h ≠ hashs.getD chunk_id "") }) := by
      simp only [ChunkInferCache.store_core]
      rw [if_pos hearly]
    rw [hres]
    exact ⟨h1, h2, h3, h4, h5, h6, h7, h8, h9, h10, h11⟩
  · have hkey : lookupA s.cache_map (hashs.getD chunk_id "") = none := by
      rcases hl : lookupA s.cache_map (hashs.getD chunk_id "") with _ | eid
      · rfl
      · exact absurd (by
          rw [preOf_getLast_of_lookup s.cache_map hashs chunk_id hl]
          rfl) hearly
    have hkeynotin : hashs.getD chunk_id "" ∉ s.cache_map.map Prod.fst :=
      (lookupA_eq_none_iff _ _).mp hkey
    have hsetA : setA s.cache_map (hashs.getD chunk_id "") s.next_id =
        s.cache_map ++ [(hashs.getD chunk_id "", s.next_id)] := setA_of_not_mem _ hkey
    have hfreshE : lookupA s.entries s.next_id = none := by
      rw [lookupA_eq_none_iff]
      intro hmem
      obtain ⟨q, hq, hq1⟩ := List.mem_map.mp hmem
      have := h11 q hq
      omega
    have hfresh_slot : ∀ sl ∈ s.use_seq_mem, s.next_id ∉ sl.seq_entries := by
      intro sl hsl hm
      exact absurd (h8 sl hsl _ hm) (lt_irrefl _)
    have hfresh_map : ∀ p ∈ s.cache_map, p.2 ≠ s.next_id := by
      intro p hp he
      have := h9 p hp
      omega
    have hfresh_fst : s.next_id ∉ s.entries.map Prod.fst := by
      intro hmem
      obtain ⟨q, hq, hq1⟩ := List.mem_map.mp hmem
      have := h11 q hq
      omega
    have hfresh_snd : s.next_id ∉ s.cache_map.map Prod.snd := by
      intro hmem
      obtain ⟨q, hq, hq1⟩ := List.mem_map.mp hmem
      have := h9 q hq
      omega
    have hmapE : ∀ p ∈ s.cache_map, ∃ e, lookupA s.entries p.2 = some e ∧
        e.prompt_hash = p.1 := by
      intro p hp
      have h := h5 p hp
      rcases hl : lookupA s.entries p.2 with _ | e
      · rw [hl] at h
        cases h
      · rw [hl] at h
        exact ⟨e, rfl, by simpa using h⟩
    have hpre_sub : ∀ a ∈ (ChunkInferCache.preOf s.cache_map hashs chunk_id).map Prod.snd,
        ∃ p ∈ s.cache_map, p.2 = a := by
      intro a ha
      obtain ⟨⟨i, b⟩, hpre, hb⟩ := List.mem_map.mp ha
      simp only at hb
      have := (preOf_mem s.cache_map hashs chunk_id hpre).1
      exact ⟨(hashs.getD i "", b), lookupA_mem this, hb⟩
    have hpre_lt : ∀ a ∈ (ChunkInferCache.preOf s.cache_map hashs chunk_id).map Prod.snd,
        a < s.next_id := by
      intro a ha
      obtain ⟨p, hp, hp2⟩ := hpre_sub a ha
      rw [← hp2]
      exact h9 p hp
    have hnid_pre : s.next_id ∉ (ChunkInferCache.preOf s.cache_map hashs chunk_id).map
        Prod.snd := by
      intro hm
      exact absurd (hpre_lt _ hm) (lt_irrefl _)
    have hpre_nodup : ((ChunkInferCache.preOf s.cache_map hashs chunk_id).map Prod.snd).Nodup :=
      preOf_snd_nodup s.cache_map hashs chunk_id h4 hlen hnd
    rcases hsel : ChunkInferCache.selectTarget s.use_seq_mem
        ((ChunkInferCache.preOf s.cache_map hashs chunk_id).getLast?.map Prod.snd)
      with _ | tsl
    · have hres : ChunkInferCache.store_core now hashs chunk_id lt np s =
          (false, { s with cache_wait_set :=
            s.cache_wait_set.filter (fun h => h ≠ hashs.getD chunk_id "") }) := by
        simp only [ChunkInferCache.store_core]
        rw [if_neg hearly, hsel]
      rw [hres]
      exact ⟨h1, h2, h3, h4, h5, h6, h7, h8, h9, h10, h11⟩
    · have htsl_mem : tsl ∈ s.use_seq_mem := by
        unfold ChunkInferCache.selectTarget at hsel
        rcases hpl : (ChunkInferCache.preOf s.cache_map hashs chunk_id).getLast?.map Prod.snd
          with _ | pl
        · rw [hpl] at hsel
          exact (selectEmpty_some hsel).1
        · rw [hpl] at hsel
          have hsel' : (match ChunkInferCache.selectEnding pl s.use_seq_mem with
              | some sl => some sl
              | none => ChunkInferCache.selectEmpty s.use_seq_mem) = some tsl := hsel
          rcases hend : ChunkInferCache.selectEnding pl s.use_seq_mem with _ | t
          · rw [hend] at hsel'
            exact (selectEmpty_some hsel').1
          · rw [hend] at hsel'
            have ht : t = tsl := Option.some_inj.mp hsel'
            rw [← ht]
            exact (selectEnding_some hend).1
      obtain ⟨l₁, l₂, hsslots⟩ := List.append_of_mem htsl_mem
      have hsides := nodup_id_split l₁ l₂ tsl (by rw [← hsslots]; exact h7)
      have hmem_l₁ : ∀ sl ∈ l₁, sl ∈ s.use_seq_mem := by
        intro sl hsl
        rw [hsslots]
        exact List.mem_append_left _ hsl
      have hmem_l₂ : ∀ sl ∈ l₂, sl ∈ s.use_seq_mem := by
        intro sl hsl
        rw [hsslots]
        exact List.mem_append_right _ (List.mem_cons_of_mem _ hsl)
      by_cases hemp : tsl.seq_entries = []
      · -- splice branch: the target slot was empty
        have hres : ChunkInferCache.store_core now hashs chunk_id lt np s =
            (true, { s with
              cache_wait_set :=
                s.cache_wait_set.filter (fun h => h ≠ hashs.getD chunk_id "")
              entries := ((ChunkInferCache.preOf s.cache_map hashs chunk_id).map
                Prod.snd).foldl
                  (fun t eid => updateA t eid
                    (fun e => { e with reference_count := e.reference_count + 1 }))
                  s.entries ++
                [(s.next_id,
                  { prompt_hash := hashs.getD chunk_id ""
                    pos_begin := match
                        (ChunkInferCache.preOf s.cache_map hashs chunk_id).getLast? with
                      | none => 0
                      | some pl => (s.getEntry pl.2).pos_end
                    pos_end := np
                    last_token := lt
                    reference_count := 1 })]
              use_seq_mem := s.use_seq_mem.map (fun sl =>
                if sl.cache_seq_id = tsl.cache_seq_id then
                  { sl with
                    seq_entries :=
                      (ChunkInferCache.preOf s.cache_map hashs chunk_id).map Prod.snd ++
                        [s.next_id]
                    last_pos := np
                    last_access := now }
                else sl)
              cache_map := setA s.cache_map (hashs.getD chunk_id "") s.next_id
              next_id := s.next_id + 1 }) := by
          simp only [ChunkInferCache.store_core]
          rw [if_neg hearly, hsel]
          simp only [if_pos hemp]
          rfl
        have hslots' : s.use_seq_mem.map (fun sl =>
            if sl.cache_seq_id = tsl.cache_seq_id then
              { sl with
                seq_entries :=
                  (ChunkInferCache.preOf s.cache_map hashs chunk_id).map Prod.snd ++
                    [s.next_id]
                last_pos := np
                last_access := now }
            else sl) = l₁ ++ { tsl with
              seq_entries :=
                (ChunkInferCache.preOf s.cache_map hashs chunk_id).map Prod.snd ++
                  [s.next_id]
              last_pos := np
              last_access := now } :: l₂ := by
          rw [hsslots]
          exact map_ite_split l₁ l₂ tsl _ hsides.1 hsides.2
        obtain ⟨s2, hG⟩ : ∃ s2,
            (ChunkInferCache.store_core now hashs chunk_id lt np s).2 = s2 := ⟨_, rfl⟩
        rw [hG]
        have hE : s2.entries = ((ChunkInferCache.preOf s.cache_map hashs chunk_id).map
            Prod.snd).foldl
              (fun t eid => updateA t eid
                (fun e => { e with reference_count := e.reference_count + 1 }))
              s.entries ++
            [(s.next_id,
              { prompt_hash := hashs.getD chunk_id ""
                pos_begin := match
                    (ChunkInferCache.preOf s.cache_map hashs chunk_id).getLast? with
                  | none => 0
                  | some pl => (s.getEntry pl.2).pos_end
                pos_end := np
                last_token := lt
                reference_count := 1 })] := by
          rw [← hG, hres]
        have hU : s2.use_seq_mem = l₁ ++ { tsl with
            seq_entries :=
              (ChunkInferCache.preOf s.cache_map hashs chunk_id).map Prod.snd ++
                [s.next_id]
            last_pos := np
            last_access := now } :: l₂ := by
          rw [← hG, hres]
          exact hslots'
        have hM : s2.cache_map = s.cache_map ++ [(hashs.getD chunk_id "", s.next_id)] := by
          rw [← hG, hres]
          exact hsetA
        have hN : s2.next_id = s.next_id + 1 := by
          rw [← hG, hres]
        have hlkE' : ∀ k e, lookupA s.entries k = some e →
            lookupA s2.entries k = some { e with reference_count := e.reference_count +
              (((ChunkInferCache.preOf s.cache_map hashs chunk_id).map Prod.snd).count k :
                Int) } := by
          intro k e hle
          rw [hE]
          refine lookupA_append_some _ ?_
          rw [incFold_lookup, hle]
          rfl
        have hlkNew : lookupA s2.entries s.next_id = some
            { prompt_hash := hashs.getD chunk_id ""
              pos_begin := match
                  (ChunkInferCache.preOf s.cache_map hashs chunk_id).getLast? with
                | none => 0
                | some pl => (s.getEntry pl.2).pos_end
              pos_end := np
              last_token := lt
              reference_count := 1 } := by
          rw [hE]
          rw [lookupA_append_none _ (by rw [incFold_lookup, hfreshE]; rfl)]
          simp [lookupA]
        have hrefc_old : ∀ k e, lookupA s.entries k = some e →
            ChunkInferCache.refcOf s2 k = e.reference_count +
              (((ChunkInferCache.preOf s.cache_map hashs chunk_id).map Prod.snd).count k :
                Int) := by
          intro k e hle
          simp only [ChunkInferCache.refcOf, ChunkInferCache.getEntry]
          rw [hlkE' k e hle]
          rfl
        have hcon : ∀ eid, ChunkInferCache.slotsContaining s2 eid =
            (l₁.filter (fun sl => eid ∈ sl.seq_entries)).length +
            (if eid ∈ (ChunkInferCache.preOf s.cache_map hashs chunk_id).map Prod.snd ++
              [s.next_id] then 1 else 0) +
            (l₂.filter (fun sl => eid ∈ sl.seq_entries)).length := by
          intro eid
          simp only [ChunkInferCache.slotsContaining]
          rw [hU]
          exact slotsContaining_split l₁ l₂ _ eid
        have hcoS : ∀ eid, ChunkInferCache.slotsContaining s eid =
            (l₁.filter (fun sl => eid ∈ sl.seq_entries)).length +
            (if eid ∈ tsl.seq_entries then 1 else 0) +
            (l₂.filter (fun sl => eid ∈ sl.seq_entries)).length := by
          intro eid
          simp only [ChunkInferCache.slotsContaining]
          rw [hsslots]
          exact slotsContaining_split l₁ l₂ tsl eid
        rw [ChunkInferCache.Inv]
        refine ⟨?_, ?_, ?_, ?_, ?_, ?_, ?_, ?_, ?_, ?_, ?_⟩
        · intro p hp
          rw [hM] at hp
          rcases List.mem_append.mp hp with hpm | hpm
          · obtain ⟨e, hle, hph⟩ := hmapE p hpm
            have hne : p.2 ≠ s.next_id := hfresh_map p hpm
            rw [hrefc_old p.2 e hle, hcon p.2]
            have h1p := h1 p hpm
            have hrs : ChunkInferCache.refcOf s p.2 = e.reference_count := by
              simp [ChunkInferCache.refcOf, ChunkInferCache.getEntry, hle]
            have hco : ChunkInferCache.slotsContaining s p.2 =
                (l₁.filter (fun sl => p.2 ∈ sl.seq_entries)).length + 0 +
                (l₂.filter (fun sl => p.2 ∈ sl.seq_entries)).length := by
              rw [hcoS p.2, hemp]
              simp
            rw [hrs, hco] at h1p
            obtain ⟨h1a, h1b⟩ := h1p
            have hmemite : (p.2 ∈ (ChunkInferCache.preOf s.cache_map hashs chunk_id).map
                Prod.snd ++ [s.next_id]) ↔ p.2 ∈ (ChunkInferCache.preOf s.cache_map hashs
                  chunk_id).map Prod.snd := by
              rw [List.mem_append, List.mem_singleton]
              constructor
              · rintro (hm | hm)
                · exact hm
                · exact absurd hm hne
              · exact Or.inl
            by_cases hmem : p.2 ∈ (ChunkInferCache.preOf s.cache_map hashs chunk_id).map
                Prod.snd
            · rw [if_pos (hmemite.mpr hmem), List.count_eq_one_of_mem hpre_nodup hmem]
              constructor
              · push_cast
                push_cast at h1a
                omega
              · omega
            · rw [if_neg (fun hm => hmem (hmemite.mp hm)),
                List.count_eq_zero_of_not_mem hmem]
              constructor
              · push_cast
                push_cast at h1a
                omega
              · omega
          · have hp2 : p.2 = s.next_id := by rw [List.mem_singleton.mp hpm]
            have hl1 : (l₁.filter (fun sl => s.next_id ∈ sl.seq_entries)).length = 0 :=
              filter_mem_len_zero _ _ (fun sl hm => hfresh_slot sl (hmem_l₁ sl hm))
            have hl2 : (l₂.filter (fun sl => s.next_id ∈ sl.seq_entries)).length = 0 :=
              filter_mem_len_zero _ _ (fun sl hm => hfresh_slot sl (hmem_l₂ sl hm))
            have hrefc : ChunkInferCache.refcOf s2 s.next_id = 1 := by
              simp only [ChunkInferCache.refcOf, ChunkInferCache.getEntry]
              rw [hlkNew]
              rfl
            rw [hp2, hrefc, hcon s.next_id, hl1, hl2,
              if_pos (List.mem_append.mpr (Or.inr (List.mem_singleton.mpr rfl)))]
            constructor
            · rfl
            · omega
        · intro sl' hsl' eid heid
          rw [hU] at hsl'
          rw [hM]
          rcases List.mem_append.mp hsl' with hm | hm
          · obtain ⟨p, hpmem, hp2⟩ := h2 sl' (hmem_l₁ sl' hm) eid heid
            exact ⟨p, List.mem_append_left _ hpmem, hp2⟩
          · rcases List.mem_cons.mp hm with hm | hm
            · subst hm
              have heid' : eid ∈ (ChunkInferCache.preOf s.cache_map hashs chunk_id).map
                  Prod.snd ++ [s.next_id] := heid
              rcases List.mem_append.mp heid' with hm2 | hm2
              · obtain ⟨p, hpmem, hp2⟩ := hpre_sub eid hm2
                exact ⟨p, List.mem_append_left _ hpmem, hp2⟩
              · have he : eid = s.next_id := List.mem_singleton.mp hm2
                exact ⟨(hashs.getD chunk_id "", s.next_id),
                  List.mem_append_right _ (List.mem_singleton.mpr rfl), he.symm⟩
            · obtain ⟨p, hpmem, hp2⟩ := h2 sl' (hmem_l₂ sl' hm) eid heid
              exact ⟨p, List.mem_append_left _ hpmem, hp2⟩
        · rw [hM]
          simp only [List.map_append, List.map_cons, List.map_nil]
          exact nodup_concat _ _ h3 hkeynotin
        · rw [hM]
          simp only [List.map_append, List.map_cons, List.map_nil]
          exact nodup_concat _ _ h4 hfresh_snd
        · intro p hp
          rw [hM] at hp
          rcases List.mem_append.mp hp with hpm | hpm
          · obtain ⟨e, hle, hph⟩ := hmapE p hpm
            rw [hlkE' p.2 e hle]
            simp only [Option.map_some', Option.some_inj]
            exact hph
          · have hp2 : p.2 = s.next_id := by rw [List.mem_singleton.mp hpm]
            have hp1 : p.1 = hashs.getD chunk_id "" := by rw [List.mem_singleton.mp hpm]
            rw [hp2, hlkNew, hp1]
            rfl
        · intro sl' hsl'
          rw [hU] at hsl'
          rcases List.mem_append.mp hsl' with hm | hm
          · exact h6 sl' (hmem_l₁ sl' hm)
          · rcases List.mem_cons.mp hm with hm | hm
            · subst hm
              show ((ChunkInferCache.preOf s.cache_map hashs chunk_id).map Prod.snd ++
                [s.next_id]).Nodup
              exact nodup_concat _ _ hpre_nodup hnid_pre
            · exact h6 sl' (hmem_l₂ sl' hm)
        · rw [hU]
          simp only [List.map_append, List.map_cons]
          have h7' := h7
          rw [hsslots, List.map_append, List.map_cons] at h7'
          exact h7'
        · intro sl' hsl' eid heid
          rw [hU] at hsl'
          rw [hN]
          rcases List.mem_append.mp hsl' with hm | hm
          · have := h8 sl' (hmem_l₁ sl' hm) eid heid
            omega
          · rcases List.mem_cons.mp hm with hm | hm
            · subst hm
              have heid' : eid ∈ (ChunkInferCache.preOf s.cache_map hashs chunk_id).map
                  Prod.snd ++ [s.next_id] := heid
              rcases List.mem_append.mp heid' with hm2 | hm2
              · have := hpre_lt eid hm2
                omega
              · have he : eid = s.next_id := List.mem_singleton.mp hm2
                omega
            · have := h8 sl' (hmem_l₂ sl' hm) eid heid
              omega
        · intro p hp
          rw [hM] at hp
          rw [hN]
          rcases List.mem_append.mp hp with hpm | hpm
          · have := h9 p hpm
            omega
          · have hp2 : p.2 = s.next_id := by rw [List.mem_singleton.mp hpm]
            omega
        · rw [hE]
          simp only [List.map_append, List.map_cons, List.map_nil]
          rw [incFold_map_fst]
          exact nodup_concat _ _ h10 hfresh_fst
        · intro p hp
          rw [hE] at hp
          rw [hN]
          rcases List.mem_append.mp hp with hpm | hpm
          · have hmem := List.mem_map_of_mem Prod.fst hpm
            rw [incFold_map_fst] at hmem
            obtain ⟨q, hq, hq1⟩ := List.mem_map.mp hmem
            have := h11 q hq
            omega
          · have hp1 : p.1 = s.next_id := by rw [List.mem_singleton.mp hpm]
            omega
      · -- append branch: the target slot already ends with the prefix
        have hres : ChunkInferCache.store_core now hashs chunk_id lt np s =
            (true, { s with
              cache_wait_set :=
                s.cache_wait_set.filter (fun h => h ≠ hashs.getD chunk_id "")
              entries := s.entries ++
                [(s.next_id,
                  { prompt_hash := hashs.getD chunk_id ""
                    pos_begin := match
                        (ChunkInferCache.preOf s.cache_map hashs chunk_id).getLast? with
                      | none => 0
                      | some pl => (s.getEntry pl.2).pos_end
                    pos_end := np
                    last_token := lt
                    reference_count := 1 })]
              use_seq_mem := s.use_seq_mem.map (fun sl =>
                if sl.cache_seq_id = tsl.cache_seq_id then
                  { sl with
                    seq_entries := sl.seq_entries ++ [s.next_id]
                    last_pos := np
                    last_access := now }
                else sl)
              cache_map := setA s.cache_map (hashs.getD chunk_id "") s.next_id
              next_id := s.next_id + 1 }) := by
          simp only [ChunkInferCache.store_core]
          rw [if_neg hearly, hsel]
          simp only [if_neg hemp]
          rfl
        have hslots' : s.use_seq_mem.map (fun sl =>
            if sl.cache_seq_id = tsl.cache_seq_id then
              { sl with
                seq_entries := sl.seq_entries ++ [s.next_id]
                last_pos := np
                last_access := now }
            else sl) = l₁ ++ { tsl with
              seq_entries := tsl.seq_entries ++ [s.next_id]
              last_pos := np
              last_access := now } :: l₂ := by
          rw [hsslots]
          exact map_ite_split l₁ l₂ tsl _ hsides.1 hsides.2
        obtain ⟨s2, hG⟩ : ∃ s2,
            (ChunkInferCache.store_core now hashs chunk_id lt np s).2 = s2 := ⟨_, rfl⟩
        rw [hG]
        have hE : s2.entries = s.entries ++
            [(s.next_id,
              { prompt_hash := hashs.getD chunk_id ""
                pos_begin := match
                    (ChunkInferCache.preOf s.cache_map hashs chunk_id).getLast? with
                  | none => 0
                  | some pl => (s.getEntry pl.2).pos_end
                pos_end := np
                last_token := lt
                reference_count := 1 })] := by
          rw [← hG, hres]
        have hU : s2.use_seq_mem = l₁ ++ { tsl with
            seq_entries := tsl.seq_entries ++ [s.next_id]
            last_pos := np
            last_access := now } :: l₂ := by
          rw [← hG, hres]
          exact hslots'
        have hM : s2.cache_map = s.cache_map ++ [(hashs.getD chunk_id "", s.next_id)] := by
          rw [← hG, hres]
          exact hsetA
        have hN : s2.next_id = s.next_id + 1 := by
          rw [← hG, hres]
        have hlkE' : ∀ k e, lookupA s.entries k = some e →
            lookupA s2.entries k = some e := by
          intro k e hle
          rw [hE]
          exact lookupA_append_some _ hle
        have hlkNew : lookupA s2.entries s.next_id = some
            { prompt_hash := hashs.getD chunk_id ""
              pos_begin := match
                  (ChunkInferCache.preOf s.cache_map hashs chunk_id).getLast? with
                | none => 0
                | some pl => (s.getEntry pl.2).pos_end
              pos_end := np
              last_token := lt
              reference_count := 1 } := by
          rw [hE]
          rw [lookupA_append_none _ hfreshE]
          simp [lookupA]
        have hrefc_old : ∀ k e, lookupA s.entries k = some e →
            ChunkInferCache.refcOf s2 k = e.reference_count := by
          intro k e hle
          simp only [ChunkInferCache.refcOf, ChunkInferCache.getEntry]
          rw [hlkE' k e hle]
          rfl
        have hcon : ∀ eid, ChunkInferCache.slotsContaining s2 eid =
            (l₁.filter (fun sl => eid ∈ sl.seq_entries)).length +
            (if eid ∈ tsl.seq_entries ++ [s.next_id] then 1 else 0) +
            (l₂.filter (fun sl => eid ∈ sl.seq_entries)).length := by
          intro eid
          simp only [ChunkInferCache.slotsContaining]
          rw [hU]
          exact slotsContaining_split l₁ l₂ _ eid
        have hcoS : ∀ eid, ChunkInferCache.slotsContaining s eid =
            (l₁.filter (fun sl => eid ∈ sl.seq_entries)).length +
            (if eid ∈ tsl.seq_entries then 1 else 0) +
            (l₂.filter (fun sl => eid ∈ sl.seq_entries)).length := by
          intro eid
          simp only [ChunkInferCache.slotsContaining]
          rw [hsslots]
          exact slotsContaining_split l₁ l₂ tsl eid
        rw [ChunkInferCache.Inv]
        refine ⟨?_, ?_, ?_, ?_, ?_, ?_, ?_, ?_, ?_, ?_, ?_⟩
        · intro p hp
          rw [hM] at hp
          rcases List.mem_append.mp hp with hpm | hpm
          · obtain ⟨e, hle, hph⟩ := hmapE p hpm
            have hne : p.2 ≠ s.next_id := hfresh_map p hpm
            rw [hrefc_old p.2 e hle, hcon p.2]
            have h1p := h1 p hpm
            have hrs : ChunkInferCache.refcOf s p.2 = e.reference_count := by
              simp [ChunkInferCache.refcOf, ChunkInferCache.getEntry, hle]
            rw [hrs, hcoS p.2] at h1p
            have hmemite : (p.2 ∈ tsl.seq_entries ++ [s.next_id]) ↔
                p.2 ∈ tsl.seq_entries := by
              rw [List.mem_append, List.mem_singleton]
              constructor
              · rintro (hm | hm)
                · exact hm
                · exact absurd hm hne
              · exact Or.inl
            by_cases hmem : p.2 ∈ tsl.seq_entries
            · rw [if_pos (hmemite.mpr hmem)]
              rw [if_pos hmem] at h1p
              exact h1p
            · rw [if_neg (fun hm => hmem (hmemite.mp hm))]
              rw [if_neg hmem] at h1p
              exact h1p
          · have hp2 : p.2 = s.next_id := by rw [List.mem_singleton.mp hpm]
            have hl1 : (l₁.filter (fun sl => s.next_id ∈ sl.seq_entries)).length = 0 :=
              filter_mem_len_zero _ _ (fun sl hm => hfresh_slot sl (hmem_l₁ sl hm))
            have hl2 : (l₂.filter (fun sl => s.next_id ∈ sl.seq_entries)).length = 0 :=
              filter_mem_len_zero _ _ (fun sl hm => hfresh_slot sl (hmem_l₂ sl hm))
            have hrefc : ChunkInferCache.refcOf s2 s.next_id = 1 := by
              simp only [ChunkInferCache.refcOf, ChunkInferCache.getEntry]
              rw [hlkNew]
              rfl
            rw [hp2, hrefc, hcon s.next_id, hl1, hl2,
              if_pos (List.mem_append.mpr (Or.inr (List.mem_singleton.mpr rfl)))]
            constructor
            · rfl
            · omega
        · intro sl' hsl' eid heid
          rw [hU] at hsl'
          rw [hM]
          rcases List.mem_append.mp hsl' with hm | hm
          · obtain ⟨p, hpmem, hp2⟩ := h2 sl' (hmem_l₁ sl' hm) eid heid
            exact ⟨p, List.mem_append_left _ hpmem, hp2⟩
          · rcases List.mem_cons.mp hm with hm | hm
            · subst hm
              have heid' : eid ∈ tsl.seq_entries ++ [s.next_id] := heid
              rcases List.mem_append.mp heid' with hm2 | hm2
              · obtain ⟨p, hpmem, hp2⟩ := h2 tsl htsl_mem eid hm2
                exact ⟨p, List.mem_append_left _ hpmem, hp2⟩
              · have he : eid = s.next_id := List.mem_singleton.mp hm2
                exact ⟨(hashs.getD chunk_id "", s.next_id),
                  List.mem_append_right _ (List.mem_singleton.mpr rfl), he.symm⟩
            · obtain ⟨p, hpmem, hp2⟩ := h2 sl' (hmem_l₂ sl' hm) eid heid
              exact ⟨p, List.mem_append_left _ hpmem, hp2⟩
        · rw [hM]
          simp only [List.map_append, List.map_cons, List.map_nil]
          exact nodup_concat _ _ h3 hkeynotin
        · rw [hM]
          simp only [List.map_append, List.map_cons, List.map_nil]
          exact nodup_concat _ _ h4 hfresh_snd
        · intro p hp
          rw [hM] at hp
          rcases List.mem_append.mp hp with hpm | hpm
          · obtain ⟨e, hle, hph⟩ := hmapE p hpm
            rw [hlkE' p.2 e hle]
            simp only [Option.map_some', Option.some_inj]
            exact hph
          · have hp2 : p.2 = s.next_id := by rw [List.mem_singleton.mp hpm]
            have hp1 : p.1 = hashs.getD chunk_id "" := by rw [List.mem_singleton.mp hpm]
            rw [hp2, hlkNew, hp1]
            rfl
        · intro sl' hsl'
          rw [hU] at hsl'
          rcases List.mem_append.mp hsl' with hm | hm
          · exact h6 sl' (hmem_l₁ sl' hm)
          · rcases List.mem_cons.mp hm with hm | hm
            · subst hm
              show (tsl.seq_entries ++ [s.next_id]).Nodup
              exact nodup_concat _ _ (h6 tsl htsl_mem) (hfresh_slot tsl htsl_mem)
            · exact h6 sl' (hmem_l₂ sl' hm)
        · rw [hU]
          simp only [List.map_append, List.map_cons]
          have h7' := h7
          rw [hsslots, List.map_append, List.map_cons] at h7'
          exact h7'
        · intro sl' hsl' eid heid
          rw [hU] at hsl'
          rw [hN]
          rcases List.mem_append.mp hsl' with hm | hm
          · have := h8 sl' (hmem_l₁ sl' hm) eid heid
            omega
          · rcases List.mem_cons.mp hm with hm | hm
            · subst hm
              have heid' : eid ∈ tsl.seq_entries ++ [s.next_id] := heid
              rcases List.mem_append.mp heid' with hm2 | hm2
              · have := h8 tsl htsl_mem eid hm2
                omega
              · have he : eid = s.next_id := List.mem_singleton.mp hm2
                omega
            · have := h8 sl' (hmem_l₂ sl' hm) eid heid
              omega
        · intro p hp
          rw [hM] at hp
          rw [hN]
          rcases List.mem_append.mp hp with hpm | hpm
          · have := h9 p hpm
            omega
          · have hp2 : p.2 = s.next_id := by rw [List.mem_singleton.mp hpm]
            omega
        · rw [hE]
          simp only [List.map_append, List.map_cons, List.map_nil]
          exact nodup_concat _ _ h10 hfresh_fst
        · intro p hp
          rw [hE] at hp
          rw [hN]
          rcases List.mem_append.mp hp with hpm | hpm
          · have := h11 p hpm
            omega
          · have hp1 : p.1 = s.next_id := by rw [List.mem_singleton.mp hpm]
            omega

/-- C6 (amended): the reference-count invariant `Inv` — every `CacheEntry`'s
`reference_count` equals the number of cache slots whose `SeqEntryList`
contains the entry, and every mapped entry sits in at least one slot (so a
count of 0 is impossible for a mapped key: the hash-to-entry map has already
lost the key) — holds for the freshly initialised cache, is preserved by
`maintain` (which decrements once per evicted slot holding the entry and
erases dead keys), and is preserved by `store` PROVIDED the hash prefix
`hashs[0..chunk_id]` passed to `store` contains no duplicate hash string.
The proviso is the amendment: the counterexample
shows that a duplicated hash inside the prefix makes the splice path
increment one entry twice while adding it to a single new slot, breaking the
claimed equality. -/
theorem chunkInferCache_refcount_invariant
    (cb ce now : Nat) (hashs : List String) (chunk_id : Nat) (lt np : Int)
    (s : ChunkInferCache) (hInv : ChunkInferCache.Inv s)
    (hlen : chunk_id < hashs.length) (hnd : (hashs.take (chunk_id + 1)).Nodup) :
    ChunkInferCache.Inv (ChunkInferCache.init cb ce) ∧
    ChunkInferCache.Inv (ChunkInferCache.maintain s) ∧
    ChunkInferCache.Inv (ChunkInferCache.store now hashs chunk_id lt np s).2 ∧
    (∀ p ∈ (ChunkInferCache.store now hashs chunk_id lt np s).2.cache_map,
      1 ≤ ChunkInferCache.slotsContaining
        (ChunkInferCache.store now hashs chunk_id lt np s).2 p.2) := by
  have hstore : ChunkInferCache.Inv (ChunkInferCache.store now hashs chunk_id lt np s).2 :=
    Inv_store_core now hashs chunk_id lt np (ChunkInferCache.maintain s)
      (Inv_maintain s hInv) hlen hnd
  exact ⟨Inv_init cb ce, Inv_maintain s hInv, hstore,
    fun p hp => (hstore.1 p hp).2⟩

/-- Witness for C6 at a concrete tiny cache: one sequence slot of capacity
range `[1, 2)`, a single store of the one-hash list `["h"]`. -/
theorem chunkInferCache_refcount_invariant_witness :
    ChunkInferCache.Inv (ChunkInferCache.init 1 2) ∧
    ChunkInferCache.Inv (ChunkInferCache.maintain (ChunkInferCache.init 1 2)) ∧
    ChunkInferCache.Inv (ChunkInferCache.store 0 ["h"] 0 5 10 (ChunkInferCache.init 1 2)).2 ∧
    (∀ p ∈ (ChunkInferCache.store 0 ["h"] 0 5 10 (ChunkInferCache.init 1 2)).2.cache_map,
      1 ≤ ChunkInferCache.slotsContaining
        (ChunkInferCache.store 0 ["h"] 0 5 10 (ChunkInferCache.init 1 2)).2 p.2) :=
  chunkInferCache_refcount_invariant 1 2 0 ["h"] 0 5 10 (ChunkInferCache.init 1 2)
    (Inv_init 1 2) (by decide) (by decide)
